import Mathlib

/-!
# Verification of the `rusty` terminal text editor

A shallow embedding, in Lean 4, of the buffer / undo-redo history /
viewport / incremental-render logic of the `rusty` editor, together with
proofs and refutations of the testable properties stated in its design
specification.

The repository contains two snapshots of the editor logic:

* `src/main.rs` — the self-contained program (its own `EditOp`,
  `add_edit_op`, `undo_action`, `redo_action`, `safe_insert`,
  `safe_remove`, `VirtualScreen`, event loop);
* `src/buffer.rs` / `src/render.rs` / `src/input.rs` — a modular
  prototype (`EditorBuffer`, `UndoRedoStacks`, `Renderer`).

Both are embedded here.  Text buffers (`ropey::Rope`) are modelled as
`List Char` addressed by character index; Rust's `String::len()` — a
*byte* count — is modelled by `byteLen` (the sum of the UTF-8 sizes of
the characters), which is exactly where several byte/char confusions in
the source show up.  Operations that can panic in Rust (`Rope::insert`,
`Rope::remove`, `Rope::char_to_line` on out-of-range indices,
`Option::unwrap` on `None`) are modelled as `Option`-returning
functions, `none` standing for a panic.
-/

namespace Rusty

/-- A text buffer (`ropey::Rope`) as its sequence of Unicode scalar
values; all indices below are character indices. -/
abbrev Buf := List Char

/-- Rust `String::len()` / `str::len()`: the length **in bytes** of the
UTF-8 encoding of the string. -/
def byteLen (s : Buf) : Nat := (s.map Char.utf8Size).sum

/-- Every character of `s` is a single UTF-8 byte (ASCII), so that
`byteLen s = s.length`. -/
def AsciiStr (s : Buf) : Prop := ∀ c ∈ s, Char.utf8Size c = 1

instance (s : Buf) : Decidable (AsciiStr s) :=
  inferInstanceAs (Decidable (∀ c ∈ s, _))

/-- `Rope::insert(char_idx, text)`: inserts at a character index; panics
(`none`) when the index is past the end of the rope. -/
def ropeInsert? (b : Buf) (i : Nat) (s : Buf) : Option Buf :=
  if i ≤ b.length then some (b.take i ++ s ++ b.drop i) else none

/-- `Rope::insert_char(char_idx, ch)`: single-character insertion;
panics (`none`) when the index is past the end of the rope. -/
def ropeInsertChar? (b : Buf) (i : Nat) (c : Char) : Option Buf :=
  if i ≤ b.length then some (b.take i ++ c :: b.drop i) else none

/-- `Rope::remove(start..stop)`: removes a character range; panics
(`none`) on an invalid range. -/
def ropeRemove? (b : Buf) (start stop : Nat) : Option Buf :=
  if start ≤ stop ∧ stop ≤ b.length then some (b.take start ++ b.drop stop) else none

/-- `Rope::char_to_line(char_idx)`: the index of the line containing the
character index — the number of `'\n'` characters strictly before it;
panics (`none`) when the index is past the end of the rope. -/
def charToLine? (b : Buf) (i : Nat) : Option Nat :=
  if i ≤ b.length then some ((b.take i).count '\n') else none

/-- The lines of a buffer in `ropey`'s sense: each line keeps its
terminating `'\n'`, and there is always a final (possibly empty) line
after the last `'\n'`.  `"ab\ncd"` ↦ `["ab\n", "cd"]`, `""` ↦ `[""]`. -/
def splitLines : Buf → List Buf
  | [] => [[]]
  | c :: rest =>
    if c = '\n' then [c] :: splitLines rest
    else
      match splitLines rest with
      | [] => [[c]]
      | l :: ls => (c :: l) :: ls

/-- `Rope::len_lines()`. -/
def lenLines (b : Buf) : Nat := (splitLines b).length

/-- `Rope::line(idx)` (total model; all call sites in the source guard
the index against `len_lines`). -/
def lineAt (b : Buf) (idx : Nat) : Buf := (splitLines b).getD idx []

/-- `Rope::line_to_char(line_idx)`: the character index of the start of
a line — the total length of the preceding lines (total model; call
sites guard the index). -/
def lineToChar (b : Buf) (l : Nat) : Nat :=
  (((splitLines b).take l).map List.length).sum

/-- `Rope::slice(start..stop).to_string()`: panics (`none`) on an
invalid range. -/
def ropeSlice? (b : Buf) (start stop : Nat) : Option Buf :=
  if start ≤ stop ∧ stop ≤ b.length then some ((b.drop start).take (stop - start)) else none

/-! ## `main.rs`: edit ops, history recording, safe primitives -/

/-- `EditOp` (identical in `main.rs` and `buffer.rs`): the recorded
inverse data of one primitive mutation. -/
inductive EditOp : Type
  | insert (charIdx : Nat) (content : Buf)
  | delete (charIdx : Nat) (content : Buf)
deriving DecidableEq

/-- `EditAction`: a group of ops coalesced into one undo step, stamped
with the time of its most recent op (`std::time::Instant` modelled as a
`Nat` number of milliseconds). -/
structure EditAction : Type where
  ops : List EditOp
  timestamp : Nat
deriving DecidableEq

/-- `GROUP_TIME_THRESHOLD`: the 200 ms coalescing window. -/
def GROUP_TIME_THRESHOLD : Nat := 200

/-- `main.rs::safe_remove`: clamps the end of the span to the buffer
end and removes only a non-empty in-range span, so the inner
`Rope::remove` can never panic. -/
def safeRemove? (b : Buf) (start length : Nat) : Option Buf :=
  let stop := min (start + length) b.length
  if start < stop then ropeRemove? b start stop else some b

/-- `main.rs::safe_insert`: clamps the index to the buffer end, inserts
there, and returns the new cursor `safe_idx + content.len()` — note
`content.len()` is the **byte** length. -/
def safeInsert? (b : Buf) (idx : Nat) (content : Buf) : Option (Buf × Nat) :=
  let safeIdx := min idx b.length
  (ropeInsert? b safeIdx content).map (fun b' => (b', safeIdx + byteLen content))

/-- `main.rs::add_edit_op`: coalesces `op` into the top undo action when
the top action's timestamp is within `GROUP_TIME_THRESHOLD` of `now`
(refreshing the timestamp), otherwise pushes a new single-op action.
The stack is a list with its head as the top.  (`Instant::duration_since`
saturates at zero, as does `Nat` subtraction.) -/
def addEditOp (stack : List EditAction) (op : EditOp) (now : Nat) : List EditAction :=
  match stack with
  | lastAction :: rest =>
    if now - lastAction.timestamp < GROUP_TIME_THRESHOLD then
      ⟨lastAction.ops ++ [op], now⟩ :: rest
    else
      ⟨[op], now⟩ :: lastAction :: rest
  | [] => [⟨[op], now⟩]

/-! ## Helper lemmas about the primitives -/

theorem ropeInsert?_of_le {b : Buf} {i : Nat} (s : Buf) (h : i ≤ b.length) :
    ropeInsert? b i s = some (b.take i ++ s ++ b.drop i) := by
  simp [ropeInsert?, h]

theorem safeRemove?_eq (b : Buf) (start length : Nat) :
    safeRemove? b start length
      = some (b.take start ++ b.drop (min (start + length) b.length)) := by
  unfold safeRemove? ropeRemove?
  by_cases h : start < min (start + length) b.length
  · simp only [h, if_true]
    have h1 : start ≤ min (start + length) b.length := Nat.le_of_lt h
    have h2 : min (start + length) b.length ≤ b.length := Nat.min_le_right _ _
    simp [h1, h2]
  · simp only [h, if_false]
    -- the span is empty or starts at/after the end: the result is `b` itself
    rcases Nat.lt_or_ge start b.length with hb | hb
    · have : min (start + length) b.length = start := by omega
      rw [this]
      simp [List.take_append_drop]
    · have h3 : b.take start = b := List.take_of_length_le (by omega)
      have h4 : min (start + length) b.length = b.length := by omega
      rw [h4, h3]
      simp

theorem safeInsert?_eq (b : Buf) (idx : Nat) (content : Buf) :
    safeInsert? b idx content
      = some (b.take (min idx b.length) ++ content ++ b.drop (min idx b.length),
              min idx b.length + byteLen content) := by
  have h := @ropeInsert?_of_le b (min idx b.length) content (Nat.min_le_right _ _)
  simp [safeInsert?, h]

theorem charToLine?_of_le {b : Buf} {i : Nat} (h : i ≤ b.length) :
    charToLine? b i = some ((b.take i).count '\n') := by
  simp [charToLine?, h]

theorem byteLen_nil : byteLen [] = 0 := rfl

theorem byteLen_cons (c : Char) (s : Buf) :
    byteLen (c :: s) = Char.utf8Size c + byteLen s := by
  simp [byteLen]

theorem byteLen_of_ascii {s : Buf} (h : AsciiStr s) : byteLen s = s.length := by
  induction s with
  | nil => rfl
  | cons c rest ih =>
    have hc : Char.utf8Size c = 1 := h c (List.mem_cons_self c rest)
    have hrest : AsciiStr rest := fun x hx => h x (List.mem_cons_of_mem c hx)
    rw [byteLen_cons, hc, ih hrest, List.length_cons]
    omega

theorem length_ge_one_of_byteLen {s : Buf} : s.length ≤ byteLen s := by
  induction s with
  | nil => simp [byteLen]
  | cons c rest ih =>
    rw [byteLen_cons, List.length_cons]
    have := Char.utf8Size_pos c
    omega

/-! ## Line-splitting lemmas -/

theorem splitLines_ne_nil (b : Buf) : splitLines b ≠ [] := by
  cases b with
  | nil => simp [splitLines]
  | cons c rest =>
    unfold splitLines
    by_cases h : c = '\n'
    · simp [h]
    · simp only [h, if_false]
      cases splitLines rest <;> simp

theorem flatten_splitLines (b : Buf) : (splitLines b).flatten = b := by
  induction b with
  | nil => simp [splitLines]
  | cons c rest ih =>
    unfold splitLines
    by_cases h : c = '\n'
    · subst h
      simp [List.flatten, ih]
    · simp only [h, if_false]
      rcases hs : splitLines rest with _ | ⟨l, ls⟩
      · exact absurd hs (splitLines_ne_nil rest)
      · rw [hs] at ih
        simp only [List.flatten_cons] at ih ⊢
        rw [← ih]
        simp

theorem length_splitLines (b : Buf) : (splitLines b).length = b.count '\n' + 1 := by
  induction b with
  | nil => simp [splitLines]
  | cons c rest ih =>
    unfold splitLines
    by_cases h : c = '\n'
    · subst h
      simp [List.count_cons, ih]
    · simp only [h, if_false]
      rcases hs : splitLines rest with _ | ⟨l, ls⟩
      · exact absurd hs (splitLines_ne_nil rest)
      · rw [hs] at ih
        simp only [List.length_cons] at ih ⊢
        rw [List.count_cons]
        simp only [ih]
        have : ¬ (c = '\n') := h
        simp [this]

theorem sum_take_le (l : List Nat) (n : Nat) : (l.take n).sum ≤ l.sum := by
  induction l generalizing n with
  | nil => simp
  | cons x xs ih =>
    cases n with
    | zero => simp
    | succ m =>
      simp only [List.take_succ_cons, List.sum_cons]
      exact Nat.add_le_add_left (ih m) x

theorem lineToChar_le (b : Buf) (l : Nat) : lineToChar b l ≤ b.length := by
  unfold lineToChar
  have h1 : (((splitLines b).take l).map List.length).sum
      ≤ ((splitLines b).map List.length).sum := by
    rw [List.map_take]
    exact sum_take_le _ _
  have h2 : ((splitLines b).map List.length).sum = b.length := by
    rw [← List.length_flatten, flatten_splitLines]
  omega

theorem lineToChar_succ (b : Buf) (l : Nat) (h : l < lenLines b) :
    lineToChar b (l + 1) = lineToChar b l + (lineAt b l).length := by
  unfold lineToChar lineAt
  rw [List.take_succ]
  have hget : (splitLines b)[l]? = some ((splitLines b).getD l []) := by
    rw [List.getD_eq_getElem?_getD]
    rcases h' : (splitLines b)[l]? with _ | v
    · rw [List.getElem?_eq_none_iff] at h'
      exact absurd h' (by simpa [lenLines] using h)
    · simp [h']
  rw [hget]
  simp

theorem lineToChar_add_lineAt_le (b : Buf) (l : Nat) (h : l < lenLines b) :
    lineToChar b l + (lineAt b l).length ≤ b.length := by
  rw [← lineToChar_succ b l h]
  exact lineToChar_le b (l + 1)

theorem charToLine_lt_lenLines (b : Buf) (i : Nat) :
    (b.take i).count '\n' < lenLines b := by
  rw [lenLines, length_splitLines]
  have : (b.take i).count '\n' ≤ b.count '\n' :=
    (List.take_sublist i b).count_le '\n'
  omega

/-! ## `main.rs`: editor state, undo/redo replay -/

/-- The mutable state of `main.rs`'s event loop that the editing
commands touch: the rope, the char-index cursor, the two history
stacks, the clipboard, the dirty-line set (`HashSet<usize>`) and the
viewport row. -/
structure ESt : Type where
  buffer : Buf
  cursorCharIdx : Nat
  undoStack : List EditAction
  redoStack : List EditAction
  clipboard : Buf
  dirtyLines : Finset Nat
  viewportRow : Nat
deriving DecidableEq

/-- One arm of the reversed-op loop in `main.rs::undo_action`: an
`Insert` is undone by `safe_remove` of `content.len()` **bytes worth**
of characters and the cursor jumps to the op's index; a `Delete` is
undone by `safe_insert` of the whole recorded content. -/
def undoOp? (st : ESt) (op : EditOp) : Option ESt :=
  match op with
  | .insert charIdx content =>
    (safeRemove? st.buffer charIdx (byteLen content)).bind fun b =>
      (charToLine? b charIdx).map fun ln =>
        { st with buffer := b, cursorCharIdx := charIdx,
                  dirtyLines := insert ln st.dirtyLines }
  | .delete charIdx content =>
    (safeInsert? st.buffer charIdx content).bind fun p =>
      (charToLine? p.1 charIdx).map fun ln =>
        { st with buffer := p.1, cursorCharIdx := p.2,
                  dirtyLines := insert ln st.dirtyLines }

/-- The `for op in action.ops.iter().rev()` loop of
`main.rs::undo_action`, fed with the already-reversed op list. -/
def undoFold? : ESt → List EditOp → Option ESt
  | st, [] => some st
  | st, op :: rest => (undoOp? st op).bind (fun st' => undoFold? st' rest)

/-- `main.rs::undo_action`: pops the top undo action (no-op when the
stack is empty), replays its ops in reverse, then pushes the action on
the redo stack. -/
def undoAction? (st : ESt) : Option ESt :=
  match st.undoStack with
  | [] => some st
  | action :: rest =>
    (undoFold? { st with undoStack := rest } action.ops.reverse).map fun st' =>
      { st' with redoStack := action :: st'.redoStack }

/-- One arm of the forward-op loop in `main.rs::redo_action`: an
`Insert` is replayed with `safe_insert`; a `Delete` is replayed with
`safe_remove` of `content.len()` bytes worth of characters, the cursor
clamped to the buffer end. -/
def redoOp? (st : ESt) (op : EditOp) : Option ESt :=
  match op with
  | .insert charIdx content =>
    (safeInsert? st.buffer charIdx content).bind fun p =>
      (charToLine? p.1 charIdx).map fun ln =>
        { st with buffer := p.1, cursorCharIdx := p.2,
                  dirtyLines := insert ln st.dirtyLines }
  | .delete charIdx content =>
    (safeRemove? st.buffer charIdx (byteLen content)).bind fun b =>
      (charToLine? b charIdx).map fun ln =>
        { st with buffer := b, cursorCharIdx := min charIdx b.length,
                  dirtyLines := insert ln st.dirtyLines }

/-- The `for op in &action.ops` loop of `main.rs::redo_action`. -/
def redoFold? : ESt → List EditOp → Option ESt
  | st, [] => some st
  | st, op :: rest => (redoOp? st op).bind (fun st' => redoFold? st' rest)

/-- `main.rs::redo_action`: pops the top redo action (no-op when the
stack is empty), replays its ops forward, then pushes the action on the
undo stack. -/
def redoAction? (st : ESt) : Option ESt :=
  match st.redoStack with
  | [] => some st
  | action :: rest =>
    (redoFold? { st with redoStack := rest } action.ops).map fun st' =>
      { st' with undoStack := action :: st'.undoStack }

/-- The viewport-reconciliation block at the top of `main.rs::main`'s
loop (lines 208–219): scrolls up to reveal a cursor above the window,
or down keeping the cursor on the last visible row, marking the newly
exposed lines dirty; returns the new `viewport_row` and dirty set. -/
def reconcileViewport (currentLine viewportRow maxLines : Nat)
    (dirty : Finset Nat) : Nat × Finset Nat :=
  if currentLine < viewportRow then
    (currentLine, dirty ∪ Finset.Ico currentLine viewportRow)
  else if viewportRow + maxLines ≤ currentLine then
    let newRow := currentLine - maxLines + 1
    (newRow, dirty ∪ Finset.Ico (viewportRow + maxLines) (newRow + maxLines))
  else (viewportRow, dirty)

/-- The `Ok` branch of `main.rs`'s `ConfirmOpenFile` handler (lines
418–429): replaces the buffer with the file's text, resets the cursor
and the viewport row to 0, and refills the dirty set with the whole
window (`viewport_row + i` for `i < max_lines`, with `viewport_row`
already reset to 0).  The undo and redo stacks are not touched. -/
def confirmOpenFileOk (st : ESt) (fileText : Buf) (maxLines : Nat) : ESt :=
  { st with buffer := fileText, cursorCharIdx := 0, viewportRow := 0,
            dirtyLines := Finset.range maxLines }

/-! ## `buffer.rs`: the modular prototype (`EditorBuffer`, `UndoRedoStacks`) -/

/-- The state acted on by `buffer.rs::UndoRedoStacks`: the
`EditorBuffer`, the cursor and dirty set passed in by reference, and
the two stacks owned by the struct. -/
structure BufSt : Type where
  buffer : Buf
  cursor : Nat
  undoStack : List EditAction
  redoStack : List EditAction
  dirtyLines : Finset Nat
deriving DecidableEq

/-- `buffer.rs::EditorBuffer::remove(start, len)`: forwards to
`Rope::remove(start..start + len)` with **no clamping**, so it panics
(`none`) whenever `start + len` exceeds the buffer's character
length. -/
def ebRemove? (b : Buf) (start length : Nat) : Option Buf :=
  ropeRemove? b start (start + length)

/-- One arm of the reversed-op loop in `buffer.rs::UndoRedoStacks::undo`:
an `Insert` is undone by the unclamped `EditorBuffer::remove` of
`content.len()` bytes worth of characters; a `Delete` is undone by
reinserting only `content.chars().next().unwrap()` — the **first
character** of the removed text (the source comments this with
"Slight simplification") — with the cursor set to
`char_idx + content.len()`.  The `unwrap` panics on empty content. -/
def bUndoOp? (st : BufSt) (op : EditOp) : Option BufSt :=
  match op with
  | .insert charIdx content =>
    (ebRemove? st.buffer charIdx (byteLen content)).bind fun b =>
      (charToLine? b charIdx).map fun ln =>
        { st with buffer := b, cursor := charIdx,
                  dirtyLines := insert ln st.dirtyLines }
  | .delete charIdx content =>
    match content with
    | [] => none
    | c :: _ =>
      (ropeInsertChar? st.buffer charIdx c).bind fun b =>
        (charToLine? b charIdx).map fun ln =>
          { st with buffer := b, cursor := charIdx + byteLen content,
                    dirtyLines := insert ln st.dirtyLines }

/-- The reversed-op loop of `buffer.rs::UndoRedoStacks::undo`. -/
def bUndoFold? : BufSt → List EditOp → Option BufSt
  | st, [] => some st
  | st, op :: rest => (bUndoOp? st op).bind (fun st' => bUndoFold? st' rest)

/-- `buffer.rs::UndoRedoStacks::undo`: pops the top undo action (no-op
when empty), replays its ops in reverse, pushes the action on the redo
stack. -/
def bUndo? (st : BufSt) : Option BufSt :=
  match st.undoStack with
  | [] => some st
  | action :: rest =>
    (bUndoFold? { st with undoStack := rest } action.ops.reverse).map fun st' =>
      { st' with redoStack := action :: st'.redoStack }

/-- The `for c in content.chars() { buffer.insert_char(*char_idx, c) }`
loop of `buffer.rs::UndoRedoStacks::redo`: every character is inserted
at the **same** index, so a multi-character content ends up reversed. -/
def insertCharsAt? : Buf → Nat → Buf → Option Buf
  | b, _, [] => some b
  | b, i, c :: rest => (ropeInsertChar? b i c).bind (fun b' => insertCharsAt? b' i rest)

/-- One arm of the forward-op loop in `buffer.rs::UndoRedoStacks::redo`:
an `Insert` is replayed character by character at a fixed index with
cursor `char_idx + content.len()` (bytes); a `Delete` is replayed by
the unclamped `EditorBuffer::remove`. -/
def bRedoOp? (st : BufSt) (op : EditOp) : Option BufSt :=
  match op with
  | .insert charIdx content =>
    (insertCharsAt? st.buffer charIdx content).bind fun b =>
      (charToLine? b charIdx).map fun ln =>
        { st with buffer := b, cursor := charIdx + byteLen content,
                  dirtyLines := insert ln st.dirtyLines }
  | .delete charIdx content =>
    (ebRemove? st.buffer charIdx (byteLen content)).bind fun b =>
      (charToLine? b charIdx).map fun ln =>
        { st with buffer := b, cursor := charIdx,
                  dirtyLines := insert ln st.dirtyLines }

/-- The forward-op loop of `buffer.rs::UndoRedoStacks::redo`. -/
def bRedoFold? : BufSt → List EditOp → Option BufSt
  | st, [] => some st
  | st, op :: rest => (bRedoOp? st op).bind (fun st' => bRedoFold? st' rest)

/-- `buffer.rs::UndoRedoStacks::redo`: pops the top redo action (no-op
when empty), replays its ops forward, pushes the action on the undo
stack. -/
def bRedo? (st : BufSt) : Option BufSt :=
  match st.redoStack with
  | [] => some st
  | action :: rest =>
    (bRedoFold? { st with redoStack := rest } action.ops).map fun st' =>
      { st' with undoStack := action :: st'.undoStack }

/-! ## `buffer.rs::UndoRedoStacks` as a timed transition system

`add_insert` and `add_delete` have identical stack behaviour (they
differ only in the `EditOp` constructor they record), so both are
embedded as `recordEdit`; `undo`/`redo` move the top action between the
stacks (their buffer side effects do not touch the stacks and are
modelled separately above).  `Instant::now()` is monotone, which the
step relation captures by requiring the event time to be at least the
state's clock. -/

/-- The stack-and-clock state of a `buffer.rs::UndoRedoStacks`. -/
structure HistSt : Type where
  undoStack : List EditAction
  redoStack : List EditAction
  now : Nat
deriving DecidableEq

/-- The common body of `buffer.rs::UndoRedoStacks::{add_insert,
add_delete}`: the coalescing path appends to the top action, refreshes
its timestamp and **returns early without touching the redo stack**;
only the push path clears the redo stack. -/
def recordEdit (s : HistSt) (op : EditOp) (t : Nat) : HistSt :=
  match s.undoStack with
  | lastAction :: rest =>
    if t - lastAction.timestamp < GROUP_TIME_THRESHOLD then
      { undoStack := ⟨lastAction.ops ++ [op], t⟩ :: rest,
        redoStack := s.redoStack, now := t }
    else
      { undoStack := ⟨[op], t⟩ :: lastAction :: rest, redoStack := [], now := t }
  | [] => { undoStack := [⟨[op], t⟩], redoStack := [], now := t }

/-- The stack motion of `buffer.rs::UndoRedoStacks::undo`: pop the top
undo action onto the redo stack (no-op when empty). -/
def histUndo (s : HistSt) (t : Nat) : HistSt :=
  match s.undoStack with
  | [] => { s with now := t }
  | action :: rest =>
    { undoStack := rest, redoStack := action :: s.redoStack, now := t }

/-- The stack motion of `buffer.rs::UndoRedoStacks::redo`: pop the top
redo action back onto the undo stack (no-op when empty). -/
def histRedo (s : HistSt) (t : Nat) : HistSt :=
  match s.redoStack with
  | [] => { s with now := t }
  | action :: rest =>
    { undoStack := action :: s.undoStack, redoStack := rest, now := t }

/-- One interaction with the history, at a time no earlier than the
state's clock. -/
inductive HistStep : HistSt → HistSt → Prop
  | record (s : HistSt) (op : EditOp) (t : Nat) (h : s.now ≤ t) :
      HistStep s (recordEdit s op t)
  | undo (s : HistSt) (t : Nat) (h : s.now ≤ t) : HistStep s (histUndo s t)
  | redo (s : HistSt) (t : Nat) (h : s.now ≤ t) : HistStep s (histRedo s t)

/-- `UndoRedoStacks::new()`: both stacks empty. -/
def histInit : HistSt := { undoStack := [], redoStack := [], now := 0 }

/-- States reachable from a fresh `UndoRedoStacks` through its API. -/
inductive HistReachable : HistSt → Prop
  | init : HistReachable histInit
  | step {s s' : HistSt} : HistReachable s → HistStep s s' → HistReachable s'

/-- The actions laid out in chronological order: the undo stack bottom
first, then the redo stack (whose top is the earliest undone action). -/
def chron (s : HistSt) : List EditAction := s.undoStack.reverse ++ s.redoStack

/-- The chronological-gap relation: `b` began at least one full
coalescing window after `a`'s last op. -/
def tsGap (a b : EditAction) : Prop :=
  a.timestamp + GROUP_TIME_THRESHOLD ≤ b.timestamp

/-- Invariant: chronologically consecutive actions are separated by at
least the coalescing window, and all timestamps are in the past. -/
def HistInv (s : HistSt) : Prop :=
  List.Chain' tsGap (chron s) ∧ ∀ a ∈ chron s, a.timestamp ≤ s.now

theorem histInv_init : HistInv histInit := by
  constructor <;> simp [chron, histInit]

theorem chain'_replace_last {l : List EditAction} {a b : EditAction}
    (h : List.Chain' tsGap (l ++ [a])) (hab : a.timestamp ≤ b.timestamp) :
    List.Chain' tsGap (l ++ [b]) := by
  rw [List.chain'_append] at h ⊢
  refine ⟨h.1, List.chain'_singleton _, ?_⟩
  intro x hx y hy
  simp only [List.head?_cons, Option.mem_def, Option.some.injEq] at hy
  subst hy
  have := h.2.2 x hx a (by simp)
  unfold tsGap at this ⊢
  omega

theorem chain'_push_new {l : List EditAction} {a b : EditAction}
    (h : List.Chain' tsGap (l ++ [a])) (hab : a.timestamp + GROUP_TIME_THRESHOLD ≤ b.timestamp) :
    List.Chain' tsGap ((l ++ [a]) ++ [b]) := by
  rw [List.chain'_append]
  refine ⟨h, List.chain'_singleton _, ?_⟩
  intro x hx y hy
  simp only [List.head?_cons, Option.mem_def, Option.some.injEq] at hy
  subst hy
  rw [List.getLast?_concat] at hx
  simp only [Option.mem_def, Option.some.injEq] at hx
  subst hx
  exact hab

theorem histInv_record {s : HistSt} (h : HistInv s) (op : EditOp) {t : Nat}
    (hle : s.now ≤ t) : HistInv (recordEdit s op t) := by
  obtain ⟨hchain, hts⟩ := h
  rcases hu : s.undoStack with _ | ⟨a, rest⟩
  · have hrec : recordEdit s op t = ⟨[⟨[op], t⟩], [], t⟩ := by
      simp [recordEdit, hu]
    rw [hrec]
    constructor
    · simp [chron]
    · intro x hx
      simp only [chron, List.reverse_cons, List.reverse_nil, List.nil_append,
        List.append_nil, List.mem_singleton] at hx
      subst hx
      exact Nat.le_refl t
  · have hats : a.timestamp ≤ s.now := hts a (by simp [chron, hu])
    by_cases hco : t - a.timestamp < GROUP_TIME_THRESHOLD
    · -- coalescing path: the invariant forces the redo stack to be empty
      have hredo : s.redoStack = [] := by
        rcases hr : s.redoStack with _ | ⟨r, rs⟩
        · rfl
        · exfalso
          have hchain' := hchain
          rw [chron, hu, hr, List.reverse_cons, List.chain'_append] at hchain'
          have hR := hchain'.2.2 a (by rw [List.getLast?_concat]; rfl) r (by simp)
          have hrts : r.timestamp ≤ s.now := hts r (by simp [chron, hu, hr])
          unfold tsGap GROUP_TIME_THRESHOLD at hR
          unfold GROUP_TIME_THRESHOLD at hco
          omega
      have hrec : recordEdit s op t = ⟨⟨a.ops ++ [op], t⟩ :: rest, [], t⟩ := by
        simp [recordEdit, hu, hco, hredo]
      have hold : List.Chain' tsGap (rest.reverse ++ [a]) := by
        have h' := hchain
        rw [chron, hu, hredo, List.append_nil, List.reverse_cons] at h'
        exact h'
      rw [hrec]
      constructor
      · have : chron (⟨⟨a.ops ++ [op], t⟩ :: rest, [], t⟩ : HistSt)
            = rest.reverse ++ [⟨a.ops ++ [op], t⟩] := by
          simp [chron]
        rw [this]
        exact chain'_replace_last hold (by simp; omega)
      · intro x hx
        simp only [chron, List.reverse_cons, List.append_nil,
          List.mem_append, List.mem_singleton, List.mem_reverse] at hx
        rcases hx with hx | hx
        · have : x.timestamp ≤ s.now := hts x (by simp [chron, hu, hx])
          exact Nat.le_trans this hle
        · subst hx
          exact Nat.le_refl t
    · -- push path: the new singleton action goes on top, redo is cleared
      have hrec : recordEdit s op t = ⟨⟨[op], t⟩ :: a :: rest, [], t⟩ := by
        simp [recordEdit, hu, hco]
      have hold : List.Chain' tsGap (rest.reverse ++ [a]) := by
        have h' := hchain
        rw [chron, hu, List.reverse_cons, List.chain'_append] at h'
        exact h'.1
      rw [hrec]
      constructor
      · have : chron (⟨⟨[op], t⟩ :: a :: rest, [], t⟩ : HistSt)
            = (rest.reverse ++ [a]) ++ [⟨[op], t⟩] := by
          simp [chron]
        rw [this]
        refine chain'_push_new hold ?_
        simp only [GROUP_TIME_THRESHOLD] at hco ⊢
        omega
      · intro x hx
        simp only [chron, List.reverse_cons, List.append_nil,
          List.mem_append, List.mem_singleton, List.mem_reverse] at hx
        rcases hx with (hx | hx) | hx
        · have : x.timestamp ≤ s.now := hts x (by simp [chron, hu, hx])
          exact Nat.le_trans this hle
        · subst hx
          exact Nat.le_trans hats hle
        · subst hx
          exact Nat.le_refl t


theorem chron_histUndo (s : HistSt) (t : Nat) : chron (histUndo s t) = chron s := by
  rcases hu : s.undoStack with _ | ⟨a, rest⟩
  · simp [chron, histUndo, hu]
  · simp [chron, histUndo, hu, List.reverse_cons, List.append_assoc]

theorem chron_histRedo (s : HistSt) (t : Nat) : chron (histRedo s t) = chron s := by
  rcases hr : s.redoStack with _ | ⟨a, rest⟩
  · simp [chron, histRedo, hr]
  · simp [chron, histRedo, hr, List.reverse_cons, List.append_assoc]

theorem histInv_undo {s : HistSt} (h : HistInv s) {t : Nat} (hle : s.now ≤ t) :
    HistInv (histUndo s t) := by
  obtain ⟨hchain, hts⟩ := h
  constructor
  · rw [chron_histUndo]
    exact hchain
  · intro x hx
    rw [chron_histUndo] at hx
    have h1 : (histUndo s t).now = t := by
      rcases hu : s.undoStack with _ | ⟨a, rest⟩ <;> simp [histUndo, hu]
    rw [h1]
    exact Nat.le_trans (hts x hx) hle

theorem histInv_redo {s : HistSt} (h : HistInv s) {t : Nat} (hle : s.now ≤ t) :
    HistInv (histRedo s t) := by
  obtain ⟨hchain, hts⟩ := h
  constructor
  · rw [chron_histRedo]
    exact hchain
  · intro x hx
    rw [chron_histRedo] at hx
    have h1 : (histRedo s t).now = t := by
      rcases hr : s.redoStack with _ | ⟨a, rest⟩ <;> simp [histRedo, hr]
    rw [h1]
    exact Nat.le_trans (hts x hx) hle

theorem histInv_of_reachable {s : HistSt} (h : HistReachable s) : HistInv s := by
  induction h with
  | init => exact histInv_init
  | step _ hstep ih =>
    cases hstep with
    | record op t hle => exact histInv_record ih op hle
    | undo t hle => exact histInv_undo ih hle
    | redo t hle => exact histInv_redo ih hle

/-- On a reachable history whose coalescing condition fires, the redo
stack is already empty: the top undo action's timestamp is at least one
full window older than any event that could have filled the redo
stack. -/
theorem redoStack_nil_of_coalesce {s : HistSt} (hinv : HistInv s)
    {a : EditAction} {rest : List EditAction} {t : Nat}
    (hu : s.undoStack = a :: rest) (ht : s.now ≤ t)
    (hco : t - a.timestamp < GROUP_TIME_THRESHOLD) : s.redoStack = [] := by
  obtain ⟨hchain, hts⟩ := hinv
  rcases hr : s.redoStack with _ | ⟨r, rs⟩
  · rfl
  · exfalso
    rw [chron, hu, hr, List.reverse_cons, List.chain'_append] at hchain
    have hR := hchain.2.2 a (by rw [List.getLast?_concat]; rfl) r (by simp)
    have hrts : r.timestamp ≤ s.now := hts r (by simp [chron, hu, hr])
    unfold tsGap GROUP_TIME_THRESHOLD at hR
    unfold GROUP_TIME_THRESHOLD at hco
    omega

/-- **C3.** Every recording of a buffer-mutating edit op into the
history of a reachable `UndoRedoStacks` leaves the redo stack empty
afterwards — in the coalescing case because the redo stack provably was
already empty (a non-empty redo stack forces the top undo action to be
at least one coalescing window old, so coalescing cannot fire), and in
the non-coalescing case because the push path clears it. -/
theorem c3_record_leaves_redo_empty {s : HistSt} (op : EditOp) {t : Nat}
    (hreach : HistReachable s) (ht : s.now ≤ t) :
    (recordEdit s op t).redoStack = [] := by
  have hinv := histInv_of_reachable hreach
  rcases hu : s.undoStack with _ | ⟨a, rest⟩
  · simp [recordEdit, hu]
  · by_cases hco : t - a.timestamp < GROUP_TIME_THRESHOLD
    · have hredo := redoStack_nil_of_coalesce hinv hu ht hco
      simp [recordEdit, hu, hco, hredo]
    · simp [recordEdit, hu, hco]

/-- Witness for C3 at a concrete reachable state whose redo stack is
non-empty (record an op, undo it, then record again). -/
theorem c3_witness :
    (recordEdit ⟨[], [⟨[EditOp.insert 0 ['a']], 0⟩], 10⟩
      (EditOp.delete 0 ['b']) 300).redoStack = [] := by
  have h2 : HistReachable (recordEdit histInit (EditOp.insert 0 ['a']) 0) :=
    HistReachable.step HistReachable.init
      (HistStep.record histInit (EditOp.insert 0 ['a']) 0 (by decide))
  have h3 : HistReachable
      (histUndo (recordEdit histInit (EditOp.insert 0 ['a']) 0) 10) :=
    HistReachable.step h2
      (HistStep.undo (recordEdit histInit (EditOp.insert 0 ['a']) 0) 10 (by decide))
  have heq : histUndo (recordEdit histInit (EditOp.insert 0 ['a']) 0) 10
      = ⟨[], [⟨[EditOp.insert 0 ['a']], 0⟩], 10⟩ := by decide
  rw [heq] at h3
  exact c3_record_leaves_redo_empty (EditOp.delete 0 ['b']) h3 (by decide)

/-- **C4.** `main.rs::add_edit_op` (and the undo-stack motion of
`buffer.rs::add_insert`/`add_delete`, which is identical): an op
recorded within the 200 ms window of the top action's timestamp is
appended to it and refreshes its timestamp; otherwise a new single-op
action is pushed.  Consequently two ops recorded within the window form
one two-op action, and two ops more than the window apart form two
actions. -/
theorem c4_coalescing :
    (∀ (s : HistSt) (op : EditOp) (t : Nat),
        (recordEdit s op t).undoStack = addEditOp s.undoStack op t)
    ∧ (∀ (lastAction : EditAction) (rest : List EditAction) (op : EditOp) (t : Nat),
        t - lastAction.timestamp < GROUP_TIME_THRESHOLD →
        addEditOp (lastAction :: rest) op t = ⟨lastAction.ops ++ [op], t⟩ :: rest)
    ∧ (∀ (lastAction : EditAction) (rest : List EditAction) (op : EditOp) (t : Nat),
        GROUP_TIME_THRESHOLD ≤ t - lastAction.timestamp →
        addEditOp (lastAction :: rest) op t = ⟨[op], t⟩ :: lastAction :: rest)
    ∧ (∀ (op1 op2 : EditOp) (t1 t2 : Nat), t2 - t1 < GROUP_TIME_THRESHOLD →
        addEditOp (addEditOp [] op1 t1) op2 t2 = [⟨[op1, op2], t2⟩])
    ∧ (∀ (op1 op2 : EditOp) (t1 t2 : Nat), t1 + GROUP_TIME_THRESHOLD < t2 →
        addEditOp (addEditOp [] op1 t1) op2 t2 = [⟨[op2], t2⟩, ⟨[op1], t1⟩]) := by
  refine ⟨?_, ?_, ?_, ?_, ?_⟩
  · intro s op t
    rcases hu : s.undoStack with _ | ⟨a, rest⟩
    · simp [recordEdit, addEditOp, hu]
    · by_cases hco : t - a.timestamp < GROUP_TIME_THRESHOLD
      · simp [recordEdit, addEditOp, hu, hco]
      · simp [recordEdit, addEditOp, hu, hco]
  · intro lastAction rest op t h
    simp [addEditOp, h]
  · intro lastAction rest op t h
    have h' : ¬ (t - lastAction.timestamp < GROUP_TIME_THRESHOLD) := by omega
    simp [addEditOp, h']
  · intro op1 op2 t1 t2 h
    simp [addEditOp, h]
  · intro op1 op2 t1 t2 h
    have h' : ¬ (t2 - t1 < GROUP_TIME_THRESHOLD) := by omega
    simp [addEditOp, h']

/-- Witness for C4: ops at 0 ms and 100 ms coalesce into one two-op
action; ops at 0 ms and 300 ms give two separate actions. -/
theorem c4_witness :
    addEditOp (addEditOp [] (EditOp.insert 0 ['a']) 0) (EditOp.insert 1 ['b']) 100
      = [⟨[EditOp.insert 0 ['a'], EditOp.insert 1 ['b']], 100⟩]
    ∧ addEditOp (addEditOp [] (EditOp.insert 0 ['a']) 0) (EditOp.insert 1 ['b']) 300
      = [⟨[EditOp.insert 1 ['b']], 300⟩, ⟨[EditOp.insert 0 ['a']], 0⟩] :=
  ⟨c4_coalescing.2.2.2.1 _ _ 0 100 (by decide),
   c4_coalescing.2.2.2.2 _ _ 0 300 (by decide)⟩

/-- **C5 (amended).** `main.rs::safe_remove` removes the requested span
clamped to the buffer end and never panics; a zero-length span, or a
span starting at or past the buffer end, is a silent no-op.  (It
returns no removed text — call sites slice the buffer beforehand; and
the unclamped `buffer.rs::EditorBuffer::remove` panics instead of
clamping, refuted separately.) -/
theorem c5_safe_remove_clamps (b : Buf) (start length k : Nat) :
    safeRemove? b start length
      = some (b.take start ++ b.drop (min (start + length) b.length))
    ∧ safeRemove? b start 0 = some b
    ∧ safeRemove? b (b.length + k) length = some b := by
  refine ⟨safeRemove?_eq b start length, ?_, ?_⟩
  · rw [safeRemove?_eq]
    rcases le_or_lt start b.length with h | h
    · have : min (start + 0) b.length = start := by omega
      rw [this, List.take_append_drop]
    · have h1 : min (start + 0) b.length = b.length := by omega
      have h2 : b.take start = b := List.take_of_length_le (by omega)
      rw [h1, h2, List.drop_length, List.append_nil]
  · rw [safeRemove?_eq]
    have h1 : min (b.length + k + length) b.length = b.length := by omega
    have h2 : b.take (b.length + k) = b := List.take_of_length_le (by omega)
    rw [h1, h2, List.drop_length, List.append_nil]

/-- Counterexample for C5 as stated: the repository's other delete
operation, `buffer.rs::EditorBuffer::remove`, does **not** clamp — on
an empty buffer, removing 1 character at offset 0 panics
(`Rope::remove(0..1)` out of range) instead of being a no-op. -/
theorem c5_counterexample : ebRemove? ([] : Buf) 0 1 = none := by decide

/-- **C6.** The viewport-reconciliation block of `main.rs`: after
reconciliation the cursor's line lies in
`[viewport_row, viewport_row + max_lines)`; the row is set to
`cursor_line` when the cursor is above the window, to
`cursor_line - max_lines + 1` when at or below its end, and is
unchanged otherwise (requires a non-degenerate window,
`1 ≤ max_lines`; the program guarantees this via
`max_lines = rows - 2`). -/
theorem c6_viewport_invariant (currentLine viewportRow maxLines : Nat)
    (dirty : Finset Nat) (hml : 1 ≤ maxLines) :
    (reconcileViewport currentLine viewportRow maxLines dirty).1 ≤ currentLine
    ∧ currentLine < (reconcileViewport currentLine viewportRow maxLines dirty).1 + maxLines
    ∧ (currentLine < viewportRow →
        (reconcileViewport currentLine viewportRow maxLines dirty).1 = currentLine)
    ∧ (viewportRow + maxLines ≤ currentLine →
        (reconcileViewport currentLine viewportRow maxLines dirty).1
          = currentLine - maxLines + 1)
    ∧ (viewportRow ≤ currentLine → currentLine < viewportRow + maxLines →
        (reconcileViewport currentLine viewportRow maxLines dirty).1 = viewportRow) := by
  have hre : (reconcileViewport currentLine viewportRow maxLines dirty).1
      = if currentLine < viewportRow then currentLine
        else if viewportRow + maxLines ≤ currentLine then currentLine - maxLines + 1
        else viewportRow := by
    unfold reconcileViewport
    by_cases h1 : currentLine < viewportRow
    · simp [h1]
    · by_cases h2 : viewportRow + maxLines ≤ currentLine
      · simp [h1, h2]
      · simp [h1, h2]
  rw [hre]
  refine ⟨?_, ?_, ?_, ?_, ?_⟩ <;> split_ifs <;> omega

/-- Witness for C6 at `cursor_line = 12`, `viewport_row = 3`,
`max_lines = 5` (scroll-down case: new row is `12 - 5 + 1 = 8`). -/
theorem c6_witness :
    (reconcileViewport 12 3 5 ∅).1 ≤ 12
    ∧ 12 < (reconcileViewport 12 3 5 ∅).1 + 5
    ∧ (12 < 3 → (reconcileViewport 12 3 5 ∅).1 = 12)
    ∧ (3 + 5 ≤ 12 → (reconcileViewport 12 3 5 ∅).1 = 12 - 5 + 1)
    ∧ (3 ≤ 12 → 12 < 3 + 5 → (reconcileViewport 12 3 5 ∅).1 = 3) :=
  c6_viewport_invariant 12 3 5 ∅ (by decide)

/-- **C1.** Evaluation of `buffer.rs::UndoRedoStacks::undo` at the
failing input: the buffer is empty and the history records
`Delete{char_idx: 0, content: "ab"}` (previously applied successfully:
removing `"ab"` from the buffer `"ab"`).  Undo reinserts only `'a'` —
the first character — leaving the buffer `"a"` instead of the full
`"ab"` the spec mandates, and parks the cursor at `0 + "ab".len() = 2`,
past the end of the one-character buffer. -/
theorem c1_undo_of_delete_truncates :
    (bUndo? ⟨[], 0, [⟨[EditOp.delete 0 ['a', 'b']], 0⟩], [], ∅⟩).map
        (fun st => (st.buffer, st.cursor))
      = some (['a'], 2) := by decide

/-- **C7 (amended).** The `Ok` branch of the `ConfirmOpenFile` handler
replaces the buffer wholesale with the file's text, resets the cursor
and viewport row to 0 and marks the whole window dirty — but it leaves
the undo and redo stacks exactly as they were: the history is **not**
discarded. -/
theorem c7_open_file_replaces_buffer (st : ESt) (fileText : Buf) (maxLines : Nat) :
    (confirmOpenFileOk st fileText maxLines).buffer = fileText
    ∧ (confirmOpenFileOk st fileText maxLines).cursorCharIdx = 0
    ∧ (confirmOpenFileOk st fileText maxLines).viewportRow = 0
    ∧ (confirmOpenFileOk st fileText maxLines).dirtyLines = Finset.range maxLines
    ∧ (confirmOpenFileOk st fileText maxLines).undoStack = st.undoStack
    ∧ (confirmOpenFileOk st fileText maxLines).redoStack = st.redoStack := by
  refine ⟨rfl, rfl, rfl, rfl, rfl, rfl⟩

/-- Counterexample for C7 as stated: opening a file over an editor
state with one recorded undo action and one redoable action leaves both
stacks non-empty — the claim said open leaves them empty. -/
theorem c7_counterexample :
    (confirmOpenFileOk
        ⟨['x'], 1, [⟨[EditOp.insert 0 ['x']], 0⟩],
         [⟨[EditOp.delete 0 ['y']], 5⟩], [], ∅, 0⟩
        ['h', 'i'] 3).undoStack ≠ []
    ∧ (confirmOpenFileOk
        ⟨['x'], 1, [⟨[EditOp.insert 0 ['x']], 0⟩],
         [⟨[EditOp.delete 0 ['y']], 5⟩], [], ∅, 0⟩
        ['h', 'i'] 3).redoStack ≠ [] := by
  refine ⟨by decide, by decide⟩

/-! ## Forward application of recorded ops, and op validity

An op recorded by the editor describes a mutation that was actually
performed: an `Insert{i, s}` inserted `s` at a valid index `i`, a
`Delete{i, s}` removed exactly the characters `s` standing at `i`.
`applyOp` replays such an op forward; `ValidOp` states that the op is
consistent with the buffer it is applied to, with all content ASCII
(single-byte, so Rust's byte lengths agree with character counts). -/

/-- Forward (re)application of a recorded op to a buffer. -/
def applyOp (b : Buf) : EditOp → Buf
  | .insert i s => b.take i ++ s ++ b.drop i
  | .delete i s => b.take i ++ b.drop (i + s.length)

/-- Sequential forward application. -/
def applyOps (b : Buf) : List EditOp → Buf
  | [] => b
  | op :: rest => applyOps (applyOp b op) rest

/-- The op is consistent with the buffer and its content is ASCII. -/
def ValidOp (b : Buf) : EditOp → Prop
  | .insert i s => i ≤ b.length ∧ AsciiStr s
  | .delete i s => i + s.length ≤ b.length ∧ s = (b.drop i).take s.length ∧ AsciiStr s

/-- Sequential consistency of a list of ops. -/
def ValidOps (b : Buf) : List EditOp → Prop
  | [] => True
  | op :: rest => ValidOp b op ∧ ValidOps (applyOp b op) rest

instance (b : Buf) (op : EditOp) : Decidable (ValidOp b op) := by
  unfold ValidOp
  cases op <;> infer_instance

instance instDecValidOps (b : Buf) (ops : List EditOp) : Decidable (ValidOps b ops) :=
  match ops with
  | [] => isTrue trivial
  | op :: rest =>
    haveI := instDecValidOps (applyOp b op) rest
    inferInstanceAs (Decidable (ValidOp b op ∧ ValidOps (applyOp b op) rest))

theorem length_applyOp_insert {b : Buf} {i : Nat} {s : Buf} (h : i ≤ b.length) :
    (applyOp b (.insert i s)).length = b.length + s.length := by
  simp only [applyOp, List.length_append, List.length_take, List.length_drop]
  omega

theorem length_applyOp_delete {b : Buf} {i : Nat} {s : Buf}
    (h : i + s.length ≤ b.length) :
    (applyOp b (.delete i s)).length = b.length - s.length := by
  simp only [applyOp, List.length_append, List.length_take, List.length_drop]
  omega

theorem take_append_full {l₁ l₂ : List Char} {n : Nat} (h : l₁.length = n) :
    (l₁ ++ l₂).take n = l₁ := by
  subst h
  exact List.take_left l₁ l₂

theorem drop_append_full {l₁ l₂ : List Char} {n : Nat} (h : l₁.length = n) :
    (l₁ ++ l₂).drop n = l₂ := by
  subst h
  exact List.drop_left l₁ l₂

/-- Undoing a valid op with `main.rs`'s `undo_action` arm restores the
original buffer exactly and succeeds, leaving the stacks, clipboard and
viewport untouched (ASCII content, so the byte count handed to
`safe_remove` equals the inserted character count). -/
theorem undoOp?_restores {b : Buf} {op : EditOp} (h : ValidOp b op) (st : ESt)
    (hbuf : st.buffer = applyOp b op) :
    ∃ st', undoOp? st op = some st'
      ∧ st'.buffer = b
      ∧ st'.undoStack = st.undoStack
      ∧ st'.redoStack = st.redoStack
      ∧ st'.clipboard = st.clipboard
      ∧ st'.viewportRow = st.viewportRow := by
  cases op with
  | insert i s =>
    obtain ⟨hi, has⟩ := h
    have hbl : byteLen s = s.length := byteLen_of_ascii has
    have hlen : st.buffer.length = b.length + s.length := by
      rw [hbuf]
      exact length_applyOp_insert hi
    have htk : (b.take i).length = i := by
      rw [List.length_take]
      omega
    have hmin : min (i + byteLen s) st.buffer.length = i + s.length := by
      omega
    have hb' : st.buffer.take i ++ st.buffer.drop (i + s.length) = b := by
      rw [hbuf]
      show (b.take i ++ s ++ b.drop i).take i
          ++ (b.take i ++ s ++ b.drop i).drop (i + s.length) = b
      have hT : (b.take i ++ s ++ b.drop i).take i = b.take i := by
        rw [List.append_assoc]
        exact take_append_full htk
      have hD : (b.take i ++ s ++ b.drop i).drop (i + s.length) = b.drop i :=
        @drop_append_full (b.take i ++ s) (b.drop i) (i + s.length) (by rw [List.length_append]; omega)
      rw [hT, hD]
      exact List.take_append_drop i b
    refine ⟨{ st with
                buffer := b
                cursorCharIdx := i
                dirtyLines := insert ((b.take i).count '\n') st.dirtyLines },
            ?_, rfl, rfl, rfl, rfl, rfl⟩
    simp only [undoOp?, safeRemove?_eq, Option.some_bind, hmin]
    rw [hb', charToLine?_of_le hi]
    simp only [Option.map_some']
  | delete i s =>
    obtain ⟨hof, hs, has⟩ := h
    have hbl : byteLen s = s.length := byteLen_of_ascii has
    have hib : i ≤ b.length := by omega
    have htk : (b.take i).length = i := by
      rw [List.length_take]
      omega
    have hlen : st.buffer.length = b.length - s.length := by
      rw [hbuf]
      exact length_applyOp_delete hof
    have hmin : min i st.buffer.length = i := by omega
    have hb' : st.buffer.take i ++ s ++ st.buffer.drop i = b := by
      rw [hbuf]
      show (b.take i ++ b.drop (i + s.length)).take i ++ s
          ++ (b.take i ++ b.drop (i + s.length)).drop i = b
      rw [take_append_full htk, drop_append_full htk]
      have hsplit : b = b.take i ++ ((b.drop i).take s.length ++ (b.drop i).drop s.length) := by
        rw [List.take_append_drop, List.take_append_drop]
      have hdd : (b.drop i).drop s.length = b.drop (i + s.length) := by
        rw [List.drop_drop]
      conv_rhs => rw [hsplit]
      rw [← hs, hdd, List.append_assoc]
    refine ⟨{ st with
                buffer := b
                cursorCharIdx := i + byteLen s
                dirtyLines := insert ((b.take i).count '\n') st.dirtyLines },
            ?_, rfl, rfl, rfl, rfl, rfl⟩
    simp only [undoOp?, safeInsert?_eq, Option.some_bind, hmin]
    rw [hb', charToLine?_of_le hib]
    simp only [Option.map_some']

/-- Replaying a valid op forward with `main.rs`'s `redo_action` arm
produces exactly `applyOp` and succeeds, leaving the stacks, clipboard
and viewport untouched. -/
theorem redoOp?_applies {b : Buf} {op : EditOp} (h : ValidOp b op) (st : ESt)
    (hbuf : st.buffer = b) :
    ∃ st', redoOp? st op = some st'
      ∧ st'.buffer = applyOp b op
      ∧ st'.undoStack = st.undoStack
      ∧ st'.redoStack = st.redoStack
      ∧ st'.clipboard = st.clipboard
      ∧ st'.viewportRow = st.viewportRow := by
  cases op with
  | insert i s =>
    obtain ⟨hi, has⟩ := h
    have hmin : min i b.length = i := by omega
    have hle : i ≤ (applyOp b (.insert i s)).length := by
      rw [length_applyOp_insert hi]
      omega
    refine ⟨{ st with
                buffer := applyOp b (.insert i s)
                cursorCharIdx := i + byteLen s
                dirtyLines := insert (((applyOp b (.insert i s)).take i).count '\n')
                  st.dirtyLines },
            ?_, rfl, rfl, rfl, rfl, rfl⟩
    simp only [redoOp?, hbuf, safeInsert?_eq, Option.some_bind, hmin]
    rw [show b.take i ++ s ++ b.drop i = applyOp b (.insert i s) from rfl,
      charToLine?_of_le hle]
    simp only [Option.map_some']
  | delete i s =>
    obtain ⟨hof, hs, has⟩ := h
    have hbl : byteLen s = s.length := byteLen_of_ascii has
    have hmin : min (i + byteLen s) b.length = i + s.length := by omega
    have hlb : (applyOp b (.delete i s)).length = b.length - s.length :=
      length_applyOp_delete hof
    have hle : i ≤ (applyOp b (.delete i s)).length := by
      rw [hlb]
      omega
    have hcur : min i (applyOp b (.delete i s)).length = i := by
      rw [hlb]
      omega
    refine ⟨{ st with
                buffer := applyOp b (.delete i s)
                cursorCharIdx := min i (applyOp b (.delete i s)).length
                dirtyLines := insert (((applyOp b (.delete i s)).take i).count '\n')
                  st.dirtyLines },
            ?_, rfl, rfl, rfl, rfl, rfl⟩
    simp only [redoOp?, hbuf, safeRemove?_eq, Option.some_bind, hmin]
    rw [show b.take i ++ b.drop (i + s.length) = applyOp b (.delete i s) from rfl,
      charToLine?_of_le hle]
    simp only [Option.map_some']

theorem undoFold?_append (st : ESt) (l₁ l₂ : List EditOp) :
    undoFold? st (l₁ ++ l₂) = (undoFold? st l₁).bind (fun s => undoFold? s l₂) := by
  induction l₁ generalizing st with
  | nil => simp [undoFold?]
  | cons op rest ih =>
    simp only [List.cons_append, undoFold?]
    cases undoOp? st op with
    | none => simp
    | some st' => simp [ih]

/-- Undoing the reversed op list of a valid action restores the
original buffer exactly. -/
theorem undoFold?_restores (ops : List EditOp) : ∀ (b : Buf) (st : ESt),
    ValidOps b ops → st.buffer = applyOps b ops →
    ∃ st', undoFold? st ops.reverse = some st'
      ∧ st'.buffer = b
      ∧ st'.undoStack = st.undoStack
      ∧ st'.redoStack = st.redoStack
      ∧ st'.clipboard = st.clipboard
      ∧ st'.viewportRow = st.viewportRow := by
  induction ops with
  | nil =>
    intro b st _ hbuf
    exact ⟨st, rfl, hbuf, rfl, rfl, rfl, rfl⟩
  | cons op rest ih =>
    intro b st hv hbuf
    obtain ⟨hop, hrest⟩ := hv
    rw [List.reverse_cons, undoFold?_append]
    obtain ⟨st₁, h1, hb1, hu1, hr1, hc1, hv1⟩ := ih (applyOp b op) st hrest hbuf
    obtain ⟨st₂, h2, hb2, hu2, hr2, hc2, hv2⟩ := undoOp?_restores hop st₁ hb1
    refine ⟨st₂, ?_, hb2, by rw [hu2, hu1], by rw [hr2, hr1],
      by rw [hc2, hc1], by rw [hv2, hv1]⟩
    rw [h1, Option.some_bind]
    simp [undoFold?, h2]

/-- Redoing the op list of a valid action forward reproduces the
post-action buffer exactly. -/
theorem redoFold?_applies (ops : List EditOp) : ∀ (b : Buf) (st : ESt),
    ValidOps b ops → st.buffer = b →
    ∃ st', redoFold? st ops = some st'
      ∧ st'.buffer = applyOps b ops
      ∧ st'.undoStack = st.undoStack
      ∧ st'.redoStack = st.redoStack
      ∧ st'.clipboard = st.clipboard
      ∧ st'.viewportRow = st.viewportRow := by
  induction ops with
  | nil =>
    intro b st _ hbuf
    exact ⟨st, rfl, hbuf, rfl, rfl, rfl, rfl⟩
  | cons op rest ih =>
    intro b st hv hbuf
    obtain ⟨hop, hrest⟩ := hv
    obtain ⟨st₁, h1, hb1, hu1, hr1, hc1, hv1⟩ := redoOp?_applies hop st hbuf
    obtain ⟨st₂, h2, hb2, hu2, hr2, hc2, hv2⟩ := ih (applyOp b op) st₁ hrest hb1
    refine ⟨st₂, ?_, hb2, by rw [hu2, hu1], by rw [hr2, hr1],
      by rw [hc2, hc1], by rw [hv2, hv1]⟩
    show (redoOp? st op).bind _ = some st₂
    rw [h1, Option.some_bind]
    exact h2

/-- **C2 (amended).** For every prior buffer and every recorded action
whose ops are sequentially consistent with that buffer and whose
contents are ASCII, one `main.rs::undo_action` restores the exact prior
buffer content, and one `main.rs::redo_action` then restores the exact
post-action content.  (The claim as stated — including multi-byte
contents, and the exact prior cursor — is refuted separately: byte
lengths are used as character counts, and the cursor lands at the
offset determined by the action's first op.) -/
theorem c2_roundtrip_ascii (pre : Buf) (ops : List EditOp) (ts cur : Nat)
    (redoS : List EditAction) (clip : Buf) (dirty : Finset Nat) (vr : Nat)
    (h : ValidOps pre ops) :
    ∃ st₁ st₂,
      undoAction? ⟨applyOps pre ops, cur, [⟨ops, ts⟩], redoS, clip, dirty, vr⟩ = some st₁
      ∧ st₁.buffer = pre
      ∧ redoAction? st₁ = some st₂
      ∧ st₂.buffer = applyOps pre ops := by
  obtain ⟨st', h1, hb, hu, hr, hc, hv⟩ :=
    undoFold?_restores ops pre ⟨applyOps pre ops, cur, [], redoS, clip, dirty, vr⟩ h rfl
  obtain ⟨st₂', h2, hb2, hu2, hr2, hc2, hv2⟩ := redoFold?_applies ops pre st' h hb
  have hst1 : undoAction? ⟨applyOps pre ops, cur, [⟨ops, ts⟩], redoS, clip, dirty, vr⟩
      = some { st' with redoStack := ⟨ops, ts⟩ :: st'.redoStack } := by
    show (undoFold? ⟨applyOps pre ops, cur, [], redoS, clip, dirty, vr⟩ ops.reverse).map _
        = some _
    rw [h1, Option.map_some']
  have hst2 : redoAction? { st' with redoStack := ⟨ops, ts⟩ :: st'.redoStack }
      = some { st₂' with undoStack := ⟨ops, ts⟩ :: st₂'.undoStack } := by
    show (redoFold? st' ops).map _ = some _
    rw [h2, Option.map_some']
  exact ⟨{ st' with redoStack := ⟨ops, ts⟩ :: st'.redoStack },
         { st₂' with undoStack := ⟨ops, ts⟩ :: st₂'.undoStack },
         hst1, hb, hst2, hb2⟩

/-- Counterexample for C2 as stated: insert the two-byte character `'é'`
at offset 0 of the buffer `"x"` (recorded as `Insert{0, "é"}`); undo
removes `content.len() = 2` **characters** instead of 1, wiping the
whole buffer instead of restoring `"x"`. -/
theorem c2_counterexample :
    (undoAction? ⟨['é', 'x'], 1, [⟨[EditOp.insert 0 ['é']], 0⟩], [], [], ∅, 0⟩).map
        (fun st => st.buffer) = some []
    ∧ (some ([] : Buf) ≠ some (['x'] : Buf)) := ⟨by decide, by decide⟩

/-- Witness for C2 on the action `[Insert{0,"a"}, Delete{1,"x"}]`
applied to the buffer `"x"`: undo restores `"x"`, redo restores `"a"`. -/
theorem c2_witness :
    ∃ st₁ st₂,
      undoAction? ⟨['a'], 0,
          [⟨[EditOp.insert 0 ['a'], EditOp.delete 1 ['x']], 7⟩], [], [], ∅, 0⟩ = some st₁
      ∧ st₁.buffer = ['x']
      ∧ redoAction? st₁ = some st₂
      ∧ st₂.buffer = ['a'] :=
  c2_roundtrip_ascii ['x'] [EditOp.insert 0 ['a'], EditOp.delete 1 ['x']] 7 0 [] [] ∅ 0
    (by decide)

/-! ## Safety of `main.rs` undo/redo replay

`undo_action`/`redo_action` can only panic inside `char_to_line` (the
`safe_*` primitives clamp).  `UndoOpOK`/`RedoOpOK` state the op-offset
and ASCII conditions under which each replay arm succeeds and keeps the
cursor within the buffer; ops recorded by the editor's own command
handlers satisfy them. -/

/-- The buffer produced by undoing one op (the `safe_remove` /
`safe_insert` results spelled out). -/
def undoBufOp (b : Buf) : EditOp → Buf
  | .insert i s => b.take i ++ b.drop (min (i + byteLen s) b.length)
  | .delete i s => b.take (min i b.length) ++ s ++ b.drop (min i b.length)

/-- Conditions for one undo arm to succeed with an in-range cursor. -/
def UndoOpOK (b : Buf) : EditOp → Prop
  | .insert i _ => i ≤ b.length
  | .delete i s => i ≤ b.length ∧ AsciiStr s

/-- Sequential conditions along the reversed (replay-order) op list. -/
def UndoSafe (b : Buf) : List EditOp → Prop
  | [] => True
  | op :: rest => UndoOpOK b op ∧ UndoSafe (undoBufOp b op) rest

/-- The buffer produced by redoing one op. -/
def redoBufOp (b : Buf) : EditOp → Buf
  | .insert i s => b.take (min i b.length) ++ s ++ b.drop (min i b.length)
  | .delete i s => b.take i ++ b.drop (min (i + byteLen s) b.length)

/-- Conditions for one redo arm to succeed with an in-range cursor. -/
def RedoOpOK (b : Buf) : EditOp → Prop
  | .insert i s => i ≤ b.length ∧ AsciiStr s
  | .delete i _ => i ≤ b.length

/-- Sequential conditions along the forward op list. -/
def RedoSafe (b : Buf) : List EditOp → Prop
  | [] => True
  | op :: rest => RedoOpOK b op ∧ RedoSafe (redoBufOp b op) rest

instance (b : Buf) (op : EditOp) : Decidable (UndoOpOK b op) := by
  unfold UndoOpOK
  cases op <;> infer_instance

instance (b : Buf) (op : EditOp) : Decidable (RedoOpOK b op) := by
  unfold RedoOpOK
  cases op <;> infer_instance

instance instDecUndoSafe (b : Buf) (ops : List EditOp) : Decidable (UndoSafe b ops) :=
  match ops with
  | [] => isTrue trivial
  | op :: rest =>
    haveI := instDecUndoSafe (undoBufOp b op) rest
    inferInstanceAs (Decidable (UndoOpOK b op ∧ UndoSafe (undoBufOp b op) rest))

instance instDecRedoSafe (b : Buf) (ops : List EditOp) : Decidable (RedoSafe b ops) :=
  match ops with
  | [] => isTrue trivial
  | op :: rest =>
    haveI := instDecRedoSafe (redoBufOp b op) rest
    inferInstanceAs (Decidable (RedoOpOK b op ∧ RedoSafe (redoBufOp b op) rest))

/-- One undo arm succeeds under `UndoOpOK` and leaves the cursor within
the buffer, regardless of where it was before. -/
theorem undoOp?_safe {op : EditOp} (st : ESt) (h : UndoOpOK st.buffer op) :
    ∃ st', undoOp? st op = some st'
      ∧ st'.buffer = undoBufOp st.buffer op
      ∧ st'.cursorCharIdx ≤ st'.buffer.length
      ∧ st'.undoStack = st.undoStack
      ∧ st'.redoStack = st.redoStack
      ∧ st'.clipboard = st.clipboard
      ∧ st'.viewportRow = st.viewportRow := by
  cases op with
  | insert i s =>
    have hi : i ≤ st.buffer.length := h
    have hlen : (undoBufOp st.buffer (.insert i s)).length
        = i + (st.buffer.length - min (i + byteLen s) st.buffer.length) := by
      simp only [undoBufOp, List.length_append, List.length_take, List.length_drop]
      omega
    have hle : i ≤ (undoBufOp st.buffer (.insert i s)).length := by
      rw [hlen]
      omega
    refine ⟨{ st with
                buffer := undoBufOp st.buffer (.insert i s)
                cursorCharIdx := i
                dirtyLines := insert (((undoBufOp st.buffer (.insert i s)).take i).count '\n')
                  st.dirtyLines },
            ?_, rfl, hle, rfl, rfl, rfl, rfl⟩
    simp only [undoOp?, safeRemove?_eq, Option.some_bind]
    rw [show st.buffer.take i ++ st.buffer.drop (min (i + byteLen s) st.buffer.length)
        = undoBufOp st.buffer (.insert i s) from rfl, charToLine?_of_le hle]
    simp only [Option.map_some']
  | delete i s =>
    obtain ⟨hi, has⟩ := h
    have hbl : byteLen s = s.length := byteLen_of_ascii has
    have hmin : min i st.buffer.length = i := by omega
    have hlen : (undoBufOp st.buffer (.delete i s)).length
        = st.buffer.length + s.length := by
      simp only [undoBufOp, List.length_append, List.length_take, List.length_drop]
      omega
    have hle : i ≤ (undoBufOp st.buffer (.delete i s)).length := by
      rw [hlen]
      omega
    have hcur : i + byteLen s ≤ (undoBufOp st.buffer (.delete i s)).length := by
      rw [hlen]
      omega
    refine ⟨{ st with
                buffer := undoBufOp st.buffer (.delete i s)
                cursorCharIdx := min i st.buffer.length + byteLen s
                dirtyLines := insert (((undoBufOp st.buffer (.delete i s)).take i).count '\n')
                  st.dirtyLines },
            ?_, rfl, ?_, rfl, rfl, rfl, rfl⟩
    · simp only [undoOp?, safeInsert?_eq, Option.some_bind]
      rw [show st.buffer.take (min i st.buffer.length) ++ s
            ++ st.buffer.drop (min i st.buffer.length)
          = undoBufOp st.buffer (.delete i s) from rfl, charToLine?_of_le hle]
      simp only [Option.map_some']
    · show min i st.buffer.length + byteLen s ≤ _
      rw [hmin]
      exact hcur

/-- One redo arm succeeds under `RedoOpOK` and leaves the cursor within
the buffer, regardless of where it was before. -/
theorem redoOp?_safe {op : EditOp} (st : ESt) (h : RedoOpOK st.buffer op) :
    ∃ st', redoOp? st op = some st'
      ∧ st'.buffer = redoBufOp st.buffer op
      ∧ st'.cursorCharIdx ≤ st'.buffer.length
      ∧ st'.undoStack = st.undoStack
      ∧ st'.redoStack = st.redoStack
      ∧ st'.clipboard = st.clipboard
      ∧ st'.viewportRow = st.viewportRow := by
  cases op with
  | insert i s =>
    obtain ⟨hi, has⟩ := h
    have hbl : byteLen s = s.length := byteLen_of_ascii has
    have hmin : min i st.buffer.length = i := by omega
    have hlen : (redoBufOp st.buffer (.insert i s)).length
        = st.buffer.length + s.length := by
      simp only [redoBufOp, List.length_append, List.length_take, List.length_drop]
      omega
    have hle : i ≤ (redoBufOp st.buffer (.insert i s)).length := by
      rw [hlen]
      omega
    have hcur : i + byteLen s ≤ (redoBufOp st.buffer (.insert i s)).length := by
      rw [hlen]
      omega
    refine ⟨{ st with
                buffer := redoBufOp st.buffer (.insert i s)
                cursorCharIdx := min i st.buffer.length + byteLen s
                dirtyLines := insert (((redoBufOp st.buffer (.insert i s)).take i).count '\n')
                  st.dirtyLines },
            ?_, rfl, ?_, rfl, rfl, rfl, rfl⟩
    · simp only [redoOp?, safeInsert?_eq, Option.some_bind]
      rw [show st.buffer.take (min i st.buffer.length) ++ s
            ++ st.buffer.drop (min i st.buffer.length)
          = redoBufOp st.buffer (.insert i s) from rfl, charToLine?_of_le hle]
      simp only [Option.map_some']
    · show min i st.buffer.length + byteLen s ≤ _
      rw [hmin]
      exact hcur
  | delete i s =>
    have hi : i ≤ st.buffer.length := h
    have hlen : (redoBufOp st.buffer (.delete i s)).length
        = i + (st.buffer.length - min (i + byteLen s) st.buffer.length) := by
      simp only [redoBufOp, List.length_append, List.length_take, List.length_drop]
      omega
    have hle : i ≤ (redoBufOp st.buffer (.delete i s)).length := by
      rw [hlen]
      omega
    refine ⟨{ st with
                buffer := redoBufOp st.buffer (.delete i s)
                cursorCharIdx := min i (redoBufOp st.buffer (.delete i s)).length
                dirtyLines := insert (((redoBufOp st.buffer (.delete i s)).take i).count '\n')
                  st.dirtyLines },
            ?_, rfl, Nat.min_le_right _ _, rfl, rfl, rfl, rfl⟩
    simp only [redoOp?, safeRemove?_eq, Option.some_bind]
    rw [show st.buffer.take i ++ st.buffer.drop (min (i + byteLen s) st.buffer.length)
        = redoBufOp st.buffer (.delete i s) from rfl, charToLine?_of_le hle]
    simp only [Option.map_some']

/-- The whole reversed-op undo loop succeeds under `UndoSafe`, and
preserves an in-range cursor. -/
theorem undoFold?_safe : ∀ (ops : List EditOp) (st : ESt),
    UndoSafe st.buffer ops →
    ∃ st', undoFold? st ops = some st'
      ∧ (st.cursorCharIdx ≤ st.buffer.length →
          st'.cursorCharIdx ≤ st'.buffer.length)
      ∧ st'.undoStack = st.undoStack
      ∧ st'.redoStack = st.redoStack
      ∧ st'.clipboard = st.clipboard
      ∧ st'.viewportRow = st.viewportRow := by
  intro ops
  induction ops with
  | nil =>
    intro st _
    exact ⟨st, rfl, fun h => h, rfl, rfl, rfl, rfl⟩
  | cons op rest ih =>
    intro st hsafe
    obtain ⟨hok, hrest⟩ := hsafe
    obtain ⟨st₁, h1, hb1, hcur1, hu1, hr1, hc1, hv1⟩ := undoOp?_safe st hok
    have hrest' : UndoSafe st₁.buffer rest := by
      rw [hb1]
      exact hrest
    obtain ⟨st₂, h2, hcur2, hu2, hr2, hc2, hv2⟩ := ih st₁ hrest'
    refine ⟨st₂, ?_, fun _ => hcur2 hcur1, by rw [hu2, hu1], by rw [hr2, hr1],
      by rw [hc2, hc1], by rw [hv2, hv1]⟩
    show (undoOp? st op).bind _ = some st₂
    rw [h1, Option.some_bind]
    exact h2

/-- The whole forward-op redo loop succeeds under `RedoSafe`, and
preserves an in-range cursor. -/
theorem redoFold?_safe : ∀ (ops : List EditOp) (st : ESt),
    RedoSafe st.buffer ops →
    ∃ st', redoFold? st ops = some st'
      ∧ (st.cursorCharIdx ≤ st.buffer.length →
          st'.cursorCharIdx ≤ st'.buffer.length)
      ∧ st'.undoStack = st.undoStack
      ∧ st'.redoStack = st.redoStack
      ∧ st'.clipboard = st.clipboard
      ∧ st'.viewportRow = st.viewportRow := by
  intro ops
  induction ops with
  | nil =>
    intro st _
    exact ⟨st, rfl, fun h => h, rfl, rfl, rfl, rfl⟩
  | cons op rest ih =>
    intro st hsafe
    obtain ⟨hok, hrest⟩ := hsafe
    obtain ⟨st₁, h1, hb1, hcur1, hu1, hr1, hc1, hv1⟩ := redoOp?_safe st hok
    have hrest' : RedoSafe st₁.buffer rest := by
      rw [hb1]
      exact hrest
    obtain ⟨st₂, h2, hcur2, hu2, hr2, hc2, hv2⟩ := ih st₁ hrest'
    refine ⟨st₂, ?_, fun _ => hcur2 hcur1, by rw [hu2, hu1], by rw [hr2, hr1],
      by rw [hc2, hc1], by rw [hv2, hv1]⟩
    show (redoOp? st op).bind _ = some st₂
    rw [h1, Option.some_bind]
    exact h2

/-- The top undo action (if any) replays safely on the current buffer. -/
def UndoSafeState (st : ESt) : Prop :=
  match st.undoStack with
  | [] => True
  | a :: _ => UndoSafe st.buffer a.ops.reverse

/-- The top redo action (if any) replays safely on the current buffer. -/
def RedoSafeState (st : ESt) : Prop :=
  match st.redoStack with
  | [] => True
  | a :: _ => RedoSafe st.buffer a.ops

instance instDecUndoSafeState (st : ESt) : Decidable (UndoSafeState st) :=
  match h : st.undoStack with
  | [] => isTrue (by unfold UndoSafeState; rw [h]; trivial)
  | a :: rest => decidable_of_iff (UndoSafe st.buffer a.ops.reverse)
      (by unfold UndoSafeState; rw [h])

instance instDecRedoSafeState (st : ESt) : Decidable (RedoSafeState st) :=
  match h : st.redoStack with
  | [] => isTrue (by unfold RedoSafeState; rw [h]; trivial)
  | a :: rest => decidable_of_iff (RedoSafe st.buffer a.ops)
      (by unfold RedoSafeState; rw [h])

/-- **C9 (amended).** Undo and redo on empty stacks are exact no-ops in
both `main.rs` and `buffer.rs`; `main.rs::undo_action`/`redo_action`
cannot fail whenever the top action replays safely (op offsets in range
and contents ASCII — which holds for ops the editor records through its
own handlers).  The unrestricted claim is refuted separately:
`buffer.rs::undo` panics on a successfully applied multi-byte
insert. -/
theorem c9_undo_redo_totality :
    (∀ (b : Buf) (cur : Nat) (redoS : List EditAction) (clip : Buf)
        (dirty : Finset Nat) (vr : Nat),
        undoAction? ⟨b, cur, [], redoS, clip, dirty, vr⟩
          = some ⟨b, cur, [], redoS, clip, dirty, vr⟩)
    ∧ (∀ (b : Buf) (cur : Nat) (undoS : List EditAction) (clip : Buf)
        (dirty : Finset Nat) (vr : Nat),
        redoAction? ⟨b, cur, undoS, [], clip, dirty, vr⟩
          = some ⟨b, cur, undoS, [], clip, dirty, vr⟩)
    ∧ (∀ (b : Buf) (cur : Nat) (redoS : List EditAction) (dirty : Finset Nat),
        bUndo? ⟨b, cur, [], redoS, dirty⟩ = some ⟨b, cur, [], redoS, dirty⟩)
    ∧ (∀ (b : Buf) (cur : Nat) (undoS : List EditAction) (dirty : Finset Nat),
        bRedo? ⟨b, cur, undoS, [], dirty⟩ = some ⟨b, cur, undoS, [], dirty⟩)
    ∧ (∀ st : ESt, UndoSafeState st → (undoAction? st).isSome = true)
    ∧ (∀ st : ESt, RedoSafeState st → (redoAction? st).isSome = true) := by
  refine ⟨fun b cur redoS clip dirty vr => rfl,
          fun b cur undoS clip dirty vr => rfl,
          fun b cur redoS dirty => rfl,
          fun b cur undoS dirty => rfl, ?_, ?_⟩
  · intro st hsafe
    obtain ⟨b, cur, undoS, redoS, clip, dirty, vr⟩ := st
    cases undoS with
    | nil => rfl
    | cons a rest =>
      have hsafe' : UndoSafe b a.ops.reverse := hsafe
      obtain ⟨st', h1, _⟩ :=
        undoFold?_safe a.ops.reverse ⟨b, cur, rest, redoS, clip, dirty, vr⟩ hsafe'
      show ((undoFold? ⟨b, cur, rest, redoS, clip, dirty, vr⟩ a.ops.reverse).map _).isSome
          = true
      rw [h1]
      rfl
  · intro st hsafe
    obtain ⟨b, cur, undoS, redoS, clip, dirty, vr⟩ := st
    cases redoS with
    | nil => rfl
    | cons a rest =>
      have hsafe' : RedoSafe b a.ops := hsafe
      obtain ⟨st', h1, _⟩ :=
        redoFold?_safe a.ops ⟨b, cur, undoS, rest, clip, dirty, vr⟩ hsafe'
      show ((redoFold? ⟨b, cur, undoS, rest, clip, dirty, vr⟩ a.ops).map _).isSome = true
      rw [h1]
      rfl

/-- Witness for C9: an undo of a recorded two-character ASCII insert
and a redo of a recorded one-character delete both succeed. -/
theorem c9_witness :
    (undoAction? ⟨['a', 'b'], 2, [⟨[EditOp.insert 0 ['a', 'b']], 0⟩], [], [], ∅, 0⟩).isSome
        = true
    ∧ (redoAction? ⟨['a', 'b'], 0, [], [⟨[EditOp.delete 0 ['a']], 0⟩], [], ∅, 0⟩).isSome
        = true :=
  ⟨c9_undo_redo_totality.2.2.2.2.1 _ (by decide),
   c9_undo_redo_totality.2.2.2.2.2 _ (by decide)⟩

/-- Counterexample for C9 as stated: inserting `"é"` into an empty
buffer succeeds (`EditorBuffer::insert_char` at 0), but undoing that
recorded op panics — `buffer.rs::undo` calls the unclamped
`EditorBuffer::remove(0, "é".len())`, i.e. `Rope::remove(0..2)` on a
one-character rope. -/
theorem c9_counterexample :
    bUndo? ⟨['é'], 1, [⟨[EditOp.insert 0 ['é']], 0⟩], [], ∅⟩ = none := by decide

/-! ## The editing-mode commands of `main.rs`'s event loop -/

/-- The editing-mode commands (the `InputMode::Editing` match arms of
`main.rs`, lines 305–407, excluding quit/save/open-mode switches, which
do not touch the buffer or cursor). -/
inductive Cmd : Type
  | insertChar (c : Char)
  | insertNewline
  | backspace
  | cut
  | copy
  | paste
  | moveLeft
  | moveRight
  | moveUp
  | moveDown
  | undo
  | redo
deriving DecidableEq

/-- The `line_end` computed by the cut/copy handlers: the start of the
next line, or the buffer end for the last line. -/
def lineStop (b : Buf) (currentLine : Nat) : Nat :=
  if currentLine + 1 < lenLines b then lineToChar b (currentLine + 1) else b.length

/-- The cursor index computed by the Up/Down handlers: the target
line's start plus the current column clamped to the target line's last
character (`saturating_sub`). -/
def moveTargetIdx (b : Buf) (cursor targetLine currentLine : Nat) : Nat :=
  lineToChar b targetLine
    + min (cursor - lineToChar b currentLine) ((lineAt b targetLine).length - 1)

/-- One editing-mode command applied to the editor state at time `t`
(the recording time handed to `add_edit_op`); `none` is a panic.  Each
arm mirrors the corresponding `main.rs` handler, including its
side-effect order (`char_to_line` on the already-mutated buffer, redo
stack cleared on every recording edit). -/
def step? : Cmd → Nat → ESt → Option ESt
  | .insertChar c, t, st =>
    (ropeInsertChar? st.buffer st.cursorCharIdx c).bind fun b =>
      (charToLine? b st.cursorCharIdx).map fun ln =>
        { st with
            buffer := b
            undoStack := addEditOp st.undoStack (.insert st.cursorCharIdx [c]) t
            redoStack := []
            dirtyLines := insert ln st.dirtyLines
            cursorCharIdx := st.cursorCharIdx + 1 }
  | .insertNewline, t, st =>
    (ropeInsertChar? st.buffer st.cursorCharIdx '\n').bind fun b =>
      (charToLine? b st.cursorCharIdx).map fun ln =>
        { st with
            buffer := b
            undoStack := addEditOp st.undoStack (.insert st.cursorCharIdx ['\n']) t
            redoStack := []
            dirtyLines := insert (ln + 1) (insert ln st.dirtyLines)
            cursorCharIdx := st.cursorCharIdx + 1 }
  | .backspace, t, st =>
    if st.cursorCharIdx = 0 then some st
    else
      (ropeSlice? st.buffer (st.cursorCharIdx - 1) st.cursorCharIdx).bind fun content =>
        (safeRemove? st.buffer (st.cursorCharIdx - 1) (byteLen content)).bind fun b =>
          (charToLine? b (st.cursorCharIdx - 1)).map fun ln =>
            { st with
                buffer := b
                cursorCharIdx := st.cursorCharIdx - 1
                undoStack := addEditOp st.undoStack
                  (.delete (st.cursorCharIdx - 1) content) t
                redoStack := []
                dirtyLines := insert ln st.dirtyLines }
  | .cut, t, st =>
    (charToLine? st.buffer st.cursorCharIdx).bind fun currentLine =>
      (ropeSlice? st.buffer (lineToChar st.buffer currentLine)
          (lineStop st.buffer currentLine)).bind fun content =>
        (safeRemove? st.buffer (lineToChar st.buffer currentLine)
            (byteLen content)).map fun b =>
          { st with
              buffer := b
              cursorCharIdx := lineToChar st.buffer currentLine
              clipboard := content
              undoStack := addEditOp st.undoStack
                (.delete (lineToChar st.buffer currentLine) content) t
              redoStack := []
              dirtyLines := insert currentLine st.dirtyLines }
  | .copy, _, st =>
    (charToLine? st.buffer st.cursorCharIdx).bind fun currentLine =>
      (ropeSlice? st.buffer (lineToChar st.buffer currentLine)
          (lineStop st.buffer currentLine)).map fun content =>
        { st with clipboard := content }
  | .paste, t, st =>
    if st.clipboard = [] then some st
    else
      (safeInsert? st.buffer st.cursorCharIdx st.clipboard).bind fun p =>
        (charToLine? p.1 st.cursorCharIdx).map fun ln =>
          { st with
              buffer := p.1
              cursorCharIdx := p.2
              undoStack := addEditOp st.undoStack
                (.insert st.cursorCharIdx st.clipboard) t
              redoStack := []
              dirtyLines := insert ln st.dirtyLines }
  | .moveLeft, _, st =>
    some (if 0 < st.cursorCharIdx
      then { st with cursorCharIdx := st.cursorCharIdx - 1 } else st)
  | .moveRight, _, st =>
    some (if st.cursorCharIdx < st.buffer.length
      then { st with cursorCharIdx := st.cursorCharIdx + 1 } else st)
  | .moveUp, _, st =>
    (charToLine? st.buffer st.cursorCharIdx).map fun currentLine =>
      if 0 < currentLine then
        { st with cursorCharIdx :=
            moveTargetIdx st.buffer st.cursorCharIdx (currentLine - 1) currentLine }
      else st
  | .moveDown, _, st =>
    (charToLine? st.buffer st.cursorCharIdx).map fun currentLine =>
      if currentLine + 1 < lenLines st.buffer then
        { st with cursorCharIdx :=
            moveTargetIdx st.buffer st.cursorCharIdx (currentLine + 1) currentLine }
      else st
  | .undo, _, st => undoAction? st
  | .redo, _, st => redoAction? st

theorem safeRemove_len_ge (b : Buf) (start length : Nat) (h : start ≤ b.length) :
    start ≤ (b.take start ++ b.drop (min (start + length) b.length)).length
    ∧ (b.take start ++ b.drop (min (start + length) b.length)).length ≤ b.length := by
  simp only [List.length_append, List.length_take, List.length_drop]
  omega

theorem lineToChar_le_lineStop (b : Buf) (cl : Nat) (h : cl < lenLines b) :
    lineToChar b cl ≤ lineStop b cl := by
  unfold lineStop
  split_ifs with h2
  · rw [lineToChar_succ b cl h]
    omega
  · exact lineToChar_le b cl

theorem lineStop_le (b : Buf) (cl : Nat) : lineStop b cl ≤ b.length := by
  unfold lineStop
  split_ifs with h2
  · exact lineToChar_le b _
  · exact Nat.le_refl _

theorem moveTargetIdx_le (b : Buf) (cursor targetLine currentLine : Nat)
    (h : targetLine < lenLines b) :
    moveTargetIdx b cursor targetLine currentLine ≤ b.length := by
  unfold moveTargetIdx
  have h1 := Nat.min_le_right (cursor - lineToChar b currentLine)
    ((lineAt b targetLine).length - 1)
  have h2 := lineToChar_add_lineAt_le b targetLine h
  omega

/-- **C10 (amended).** Every editing-mode command preserves
`cursor_char_idx ≤ buffer.len_chars()` and cannot panic, provided the
clipboard (for paste) is ASCII and, for undo/redo, the top history
action replays safely (op offsets in range, delete/insert contents
ASCII) — conditions the editor's own recording maintains for ASCII
documents.  With multi-byte content the invariant is refuted
separately: pasting `"é"` puts the cursor past the end of the
buffer. -/
theorem c10_cursor_in_range (cmd : Cmd) (t : Nat) (st : ESt)
    (hcur : st.cursorCharIdx ≤ st.buffer.length)
    (hclip : AsciiStr st.clipboard)
    (hundo : cmd = .undo → UndoSafeState st)
    (hredo : cmd = .redo → RedoSafeState st) :
    ∃ st', step? cmd t st = some st'
      ∧ st'.cursorCharIdx ≤ st'.buffer.length := by
  cases cmd with
  | insertChar c =>
    have hb : ropeInsertChar? st.buffer st.cursorCharIdx c
        = some (st.buffer.take st.cursorCharIdx ++ c :: st.buffer.drop st.cursorCharIdx) := by
      simp [ropeInsertChar?, hcur]
    have hlen : (st.buffer.take st.cursorCharIdx
        ++ c :: st.buffer.drop st.cursorCharIdx).length = st.buffer.length + 1 := by
      simp only [List.length_append, List.length_take, List.length_cons, List.length_drop]
      omega
    simp only [step?]
    rw [hb, Option.some_bind, charToLine?_of_le (by rw [hlen]; omega), Option.map_some']
    refine ⟨_, rfl, ?_⟩
    show st.cursorCharIdx + 1 ≤ (st.buffer.take st.cursorCharIdx
        ++ c :: st.buffer.drop st.cursorCharIdx).length
    rw [hlen]
    omega
  | insertNewline =>
    have hb : ropeInsertChar? st.buffer st.cursorCharIdx '\n'
        = some (st.buffer.take st.cursorCharIdx ++ '\n' :: st.buffer.drop st.cursorCharIdx) := by
      simp [ropeInsertChar?, hcur]
    have hlen : (st.buffer.take st.cursorCharIdx
        ++ '\n' :: st.buffer.drop st.cursorCharIdx).length = st.buffer.length + 1 := by
      simp only [List.length_append, List.length_take, List.length_cons, List.length_drop]
      omega
    simp only [step?]
    rw [hb, Option.some_bind, charToLine?_of_le (by rw [hlen]; omega), Option.map_some']
    refine ⟨_, rfl, ?_⟩
    show st.cursorCharIdx + 1 ≤ (st.buffer.take st.cursorCharIdx
        ++ '\n' :: st.buffer.drop st.cursorCharIdx).length
    rw [hlen]
    omega
  | backspace =>
    by_cases h0 : st.cursorCharIdx = 0
    · simp only [step?, h0, if_pos rfl]
      exact ⟨st, by simp [h0], hcur⟩
    · have hcond : st.cursorCharIdx - 1 ≤ st.cursorCharIdx
          ∧ st.cursorCharIdx ≤ st.buffer.length := ⟨by omega, hcur⟩
      have hsl : ropeSlice? st.buffer (st.cursorCharIdx - 1) st.cursorCharIdx
          = some ((st.buffer.drop (st.cursorCharIdx - 1)).take
              (st.cursorCharIdx - (st.cursorCharIdx - 1))) := by
        simp only [ropeSlice?, if_pos hcond]
      simp only [step?, if_neg h0]
      rw [hsl, Option.some_bind, safeRemove?_eq, Option.some_bind]
      have hrem := safeRemove_len_ge st.buffer (st.cursorCharIdx - 1)
        (byteLen ((st.buffer.drop (st.cursorCharIdx - 1)).take
          (st.cursorCharIdx - (st.cursorCharIdx - 1)))) (by omega)
      rw [charToLine?_of_le hrem.1, Option.map_some']
      exact ⟨_, rfl, hrem.1⟩
  | cut =>
    have hcl := charToLine_lt_lenLines st.buffer st.cursorCharIdx
    have hss := lineToChar_le_lineStop st.buffer _ hcl
    have hstop := lineStop_le st.buffer ((st.buffer.take st.cursorCharIdx).count '\n')
    have hsl : ropeSlice? st.buffer
        (lineToChar st.buffer ((st.buffer.take st.cursorCharIdx).count '\n'))
        (lineStop st.buffer ((st.buffer.take st.cursorCharIdx).count '\n'))
        = some ((st.buffer.drop
            (lineToChar st.buffer ((st.buffer.take st.cursorCharIdx).count '\n'))).take
          (lineStop st.buffer ((st.buffer.take st.cursorCharIdx).count '\n')
            - lineToChar st.buffer ((st.buffer.take st.cursorCharIdx).count '\n'))) := by
      simp only [ropeSlice?, if_pos (And.intro hss hstop)]
    simp only [step?]
    rw [charToLine?_of_le hcur, Option.some_bind, hsl, Option.some_bind,
      safeRemove?_eq, Option.map_some']
    have hrem := safeRemove_len_ge st.buffer
      (lineToChar st.buffer ((st.buffer.take st.cursorCharIdx).count '\n'))
      (byteLen ((st.buffer.drop
          (lineToChar st.buffer ((st.buffer.take st.cursorCharIdx).count '\n'))).take
        (lineStop st.buffer ((st.buffer.take st.cursorCharIdx).count '\n')
          - lineToChar st.buffer ((st.buffer.take st.cursorCharIdx).count '\n'))))
      (lineToChar_le st.buffer _)
    exact ⟨_, rfl, hrem.1⟩
  | copy =>
    have hcl := charToLine_lt_lenLines st.buffer st.cursorCharIdx
    have hss := lineToChar_le_lineStop st.buffer _ hcl
    have hstop := lineStop_le st.buffer ((st.buffer.take st.cursorCharIdx).count '\n')
    have hsl : ropeSlice? st.buffer
        (lineToChar st.buffer ((st.buffer.take st.cursorCharIdx).count '\n'))
        (lineStop st.buffer ((st.buffer.take st.cursorCharIdx).count '\n'))
        = some ((st.buffer.drop
            (lineToChar st.buffer ((st.buffer.take st.cursorCharIdx).count '\n'))).take
          (lineStop st.buffer ((st.buffer.take st.cursorCharIdx).count '\n')
            - lineToChar st.buffer ((st.buffer.take st.cursorCharIdx).count '\n'))) := by
      simp only [ropeSlice?, if_pos (And.intro hss hstop)]
    simp only [step?]
    rw [charToLine?_of_le hcur, Option.some_bind, hsl, Option.map_some']
    exact ⟨_, rfl, hcur⟩
  | paste =>
    by_cases h0 : st.clipboard = []
    · simp only [step?, if_pos h0]
      exact ⟨st, rfl, hcur⟩
    · have hbl : byteLen st.clipboard = st.clipboard.length := byteLen_of_ascii hclip
      have hmin : min st.cursorCharIdx st.buffer.length = st.cursorCharIdx := by omega
      have hlen : (st.buffer.take st.cursorCharIdx ++ st.clipboard
          ++ st.buffer.drop st.cursorCharIdx).length
          = st.buffer.length + st.clipboard.length := by
        simp only [List.length_append, List.length_take, List.length_drop]
        omega
      simp only [step?, if_neg h0]
      rw [safeInsert?_eq, hmin, Option.some_bind]
      dsimp only
      rw [charToLine?_of_le (by rw [hlen]; omega), Option.map_some']
      refine ⟨_, rfl, ?_⟩
      show st.cursorCharIdx + byteLen st.clipboard ≤ (st.buffer.take st.cursorCharIdx
          ++ st.clipboard ++ st.buffer.drop st.cursorCharIdx).length
      rw [hbl, hlen]
      omega
  | moveLeft =>
    refine ⟨_, rfl, ?_⟩
    split_ifs with h
    · show st.cursorCharIdx - 1 ≤ st.buffer.length
      omega
    · exact hcur
  | moveRight =>
    refine ⟨_, rfl, ?_⟩
    split_ifs with h
    · show st.cursorCharIdx + 1 ≤ st.buffer.length
      omega
    · exact hcur
  | moveUp =>
    have hcl := charToLine_lt_lenLines st.buffer st.cursorCharIdx
    simp only [step?]
    rw [charToLine?_of_le hcur, Option.map_some']
    refine ⟨_, rfl, ?_⟩
    split_ifs with h
    · exact moveTargetIdx_le st.buffer st.cursorCharIdx _ _ (by omega)
    · exact hcur
  | moveDown =>
    simp only [step?]
    rw [charToLine?_of_le hcur, Option.map_some']
    refine ⟨_, rfl, ?_⟩
    split_ifs with h
    · exact moveTargetIdx_le st.buffer st.cursorCharIdx _ _ h
    · exact hcur
  | undo =>
    have hsafe := hundo rfl
    obtain ⟨sbuf, scur, sundo, sredo, sclip, sdirty, svr⟩ := st
    cases sundo with
    | nil => exact ⟨_, rfl, hcur⟩
    | cons a rest =>
      have hsafe' : UndoSafe sbuf a.ops.reverse := hsafe
      obtain ⟨st', h1, hcur', hu, hr, hc, hv⟩ :=
        undoFold?_safe a.ops.reverse ⟨sbuf, scur, rest, sredo, sclip, sdirty, svr⟩ hsafe'
      refine ⟨{ st' with redoStack := a :: st'.redoStack }, ?_, ?_⟩
      · show (undoFold? ⟨sbuf, scur, rest, sredo, sclip, sdirty, svr⟩ a.ops.reverse).map _
            = some _
        rw [h1, Option.map_some']
      · exact hcur' hcur
  | redo =>
    have hsafe := hredo rfl
    obtain ⟨sbuf, scur, sundo, sredo, sclip, sdirty, svr⟩ := st
    cases sredo with
    | nil => exact ⟨_, rfl, hcur⟩
    | cons a rest =>
      have hsafe' : RedoSafe sbuf a.ops := hsafe
      obtain ⟨st', h1, hcur', hu, hr, hc, hv⟩ :=
        redoFold?_safe a.ops ⟨sbuf, scur, sundo, rest, sclip, sdirty, svr⟩ hsafe'
      refine ⟨{ st' with undoStack := a :: st'.undoStack }, ?_, ?_⟩
      · show (redoFold? ⟨sbuf, scur, sundo, rest, sclip, sdirty, svr⟩ a.ops).map _ = some _
        rw [h1, Option.map_some']
      · exact hcur' hcur

/-- Counterexample for C10 as stated: pasting the two-byte clipboard
`"é"` into an empty buffer leaves `cursor_char_idx = 0 + "é".len() = 2`
while the buffer holds 1 character — the invariant
`cursor_char_idx ≤ len_chars` is violated. -/
theorem c10_counterexample :
    (step? .paste 0 ⟨[], 0, [], [], ['é'], ∅, 0⟩).map
        (fun st => (st.cursorCharIdx, st.buffer.length)) = some (2, 1)
    ∧ ¬ (2 ≤ 1) := ⟨by decide, by decide⟩

/-- Witness for C10: pasting the ASCII clipboard `"ab"` into `"x"` at
cursor 1 succeeds and keeps the cursor within the buffer. -/
theorem c10_witness :
    ∃ st', step? .paste 0 ⟨['x'], 1, [], [], ['a', 'b'], ∅, 0⟩ = some st'
      ∧ st'.cursorCharIdx ≤ st'.buffer.length :=
  c10_cursor_in_range .paste 0 ⟨['x'], 1, [], [], ['a', 'b'], ∅, 0⟩
    (by decide) (by decide) (fun h => nomatch h) (fun h => nomatch h)

/-! ## The incremental renderer

`main.rs`'s repaint loops (lines 221–262) compare each candidate row
against the `VirtualScreen` cache and write only on mismatch; a write
is modelled as the `(view_row, content)` pair appended to a write list.
`render.rs::Renderer::render` (lines 88–139) has the same shape but
repaints in-buffer dirty lines **unconditionally** — only its tilde
rows are skip-painted. -/

/-- `format!("{:>width$}", n)`: decimal, right-aligned with spaces. -/
def padLeftNum (n width : Nat) : String :=
  String.mk (List.replicate (width - (toString n).length) ' ') ++ toString n

/-- A buffer line prepared for display: the trailing newline stripped
(`main.rs` lines 229–233). -/
def displayLine (b : Buf) (lineIdx : Nat) : String :=
  if (lineAt b lineIdx).getLast? = some '\n'
  then String.mk (lineAt b lineIdx).dropLast
  else String.mk (lineAt b lineIdx)

/-- The full intended row content: 4-wide gutter, a space, the line
(`main.rs` lines 235–236; `render.rs` composes the identical string
into its cache). -/
def combinedLine (b : Buf) (lineIdx : Nat) : String :=
  padLeftNum (lineIdx + 1) 4 ++ " " ++ displayLine b lineIdx

/-- The placeholder row for lines past the document end:
`format!("{:>width$}~ ", "", width = GUTTER_WIDTH - 1)`. -/
def tildeLine : String := "   ~ "

/-- `VirtualScreen::get_line(i).unwrap_or("")`. -/
def vsGetLine (lines : List String) (index : Nat) : String :=
  lines.getD index ""

/-- `VirtualScreen::update_line`: writes only when the index is in
range (`List.set` is likewise a no-op out of range). -/
def vsUpdateLine (lines : List String) (index : Nat) (content : String) : List String :=
  lines.set index content

/-- One iteration of the dirty-line repaint loop of `main.rs` (lines
222–245): skip rows outside the viewport or past the document end;
write and update the cache only when the cached row differs. -/
def paintLineStep (b : Buf) (viewportRow maxLines totalLines : Nat)
    (acc : List String × List (Nat × String)) (lineIdx : Nat) :
    List String × List (Nat × String) :=
  if lineIdx < viewportRow ∨ viewportRow + maxLines ≤ lineIdx ∨ totalLines ≤ lineIdx then
    acc
  else if vsGetLine acc.1 (lineIdx - viewportRow) = combinedLine b lineIdx then acc
  else (vsUpdateLine acc.1 (lineIdx - viewportRow) (combinedLine b lineIdx),
        acc.2 ++ [(lineIdx - viewportRow, combinedLine b lineIdx)])

/-- One iteration of the tilde loop of `main.rs` (lines 249–262): for
every viewport row past the document end, paint the placeholder row,
skipping it when already cached. -/
def paintTildeStep (viewportRow totalLines : Nat)
    (acc : List String × List (Nat × String)) (viewLineIdx : Nat) :
    List String × List (Nat × String) :=
  if viewportRow + viewLineIdx < totalLines then acc
  else if vsGetLine acc.1 viewLineIdx = tildeLine then acc
  else (vsUpdateLine acc.1 viewLineIdx tildeLine, acc.2 ++ [(viewLineIdx, tildeLine)])

/-- One content-row render pass of `main.rs`: the dirty-line loop over
the dirty set (iterated as a list), then the tilde loop over all
viewport rows; returns the updated `VirtualScreen` and the terminal
writes performed.  The loop then clears the dirty set, so the next pass
runs on an empty one. -/
def renderPass (b : Buf) (dirty : List Nat) (viewportRow maxLines : Nat)
    (screen : List String) : List String × List (Nat × String) :=
  (List.range maxLines).foldl (paintTildeStep viewportRow (lenLines b))
    (dirty.foldl (paintLineStep b viewportRow maxLines (lenLines b)) (screen, []))

/-- One iteration of the dirty-line loop of
`render.rs::Renderer::render` (lines 88–139): tilde rows are
skip-painted against the cache, but in-buffer rows are written
**unconditionally** — there is no cache comparison on that path. -/
def renderRsLineStep (b : Buf) (viewportRow maxLines totalLines : Nat)
    (acc : List String × List (Nat × String)) (lineIdx : Nat) :
    List String × List (Nat × String) :=
  if lineIdx < viewportRow ∨ viewportRow + maxLines ≤ lineIdx then acc
  else if totalLines ≤ lineIdx then
    if vsGetLine acc.1 (lineIdx - viewportRow) = tildeLine then acc
    else (vsUpdateLine acc.1 (lineIdx - viewportRow) tildeLine,
          acc.2 ++ [(lineIdx - viewportRow, tildeLine)])
  else (vsUpdateLine acc.1 (lineIdx - viewportRow) (combinedLine b lineIdx),
        acc.2 ++ [(lineIdx - viewportRow, combinedLine b lineIdx)])

/-- The dirty-line loop of `render.rs::Renderer::render`. -/
def renderRsPass (b : Buf) (dirty : List Nat) (viewportRow maxLines : Nat)
    (screen : List String) : List String × List (Nat × String) :=
  dirty.foldl (renderRsLineStep b viewportRow maxLines (lenLines b)) (screen, [])

theorem vsGetLine_update_ne (lines : List String) {i j : Nat} (h : i ≠ j)
    (content : String) :
    vsGetLine (vsUpdateLine lines i content) j = vsGetLine lines j := by
  unfold vsGetLine vsUpdateLine
  rw [List.getD_eq_getElem?_getD, List.getElem?_set_ne h, ← List.getD_eq_getElem?_getD]

theorem vsGetLine_update_self (lines : List String) {i : Nat} (h : i < lines.length)
    (content : String) :
    vsGetLine (vsUpdateLine lines i content) i = content := by
  unfold vsGetLine vsUpdateLine
  rw [List.getD_eq_getElem?_getD, List.getElem?_set_self', List.getElem?_eq_getElem h]
  rfl

theorem length_paintTildeStep (vr total : Nat) (acc : List String × List (Nat × String))
    (v : Nat) : ((paintTildeStep vr total acc v).1).length = acc.1.length := by
  unfold paintTildeStep
  split_ifs <;> simp [vsUpdateLine]

theorem paintLine_foldl_length (b : Buf) (vr ml total : Nat) :
    ∀ (dirty : List Nat) (acc : List String × List (Nat × String)),
    ((dirty.foldl (paintLineStep b vr ml total) acc).1).length = acc.1.length := by
  intro dirty
  induction dirty with
  | nil => intro acc; rfl
  | cons l rest ih =>
    intro acc
    rw [List.foldl_cons, ih]
    unfold paintLineStep
    split_ifs <;> simp [vsUpdateLine]

theorem paintLine_foldl_nowrite (b : Buf) (vr ml total : Nat) :
    ∀ (dirty : List Nat) (screen : List String) (w : List (Nat × String)),
    (∀ l ∈ dirty, vr ≤ l → l < vr + ml → l < total →
        vsGetLine screen (l - vr) = combinedLine b l) →
    dirty.foldl (paintLineStep b vr ml total) (screen, w) = (screen, w) := by
  intro dirty
  induction dirty with
  | nil =>
    intro screen w _
    rfl
  | cons l rest ih =>
    intro screen w hmatch
    rw [List.foldl_cons]
    have hstep : paintLineStep b vr ml total (screen, w) l = (screen, w) := by
      unfold paintLineStep
      by_cases hskip : l < vr ∨ vr + ml ≤ l ∨ total ≤ l
      · rw [if_pos hskip]
      · rw [if_neg hskip]
        have h1 := hmatch l (List.mem_cons_self l rest) (by omega) (by omega) (by omega)
        rw [if_pos h1]
    rw [hstep]
    exact ih screen w (fun x hx => hmatch x (List.mem_cons_of_mem l hx))

theorem paintTilde_foldl_nowrite (vr total : Nat) :
    ∀ (vs : List Nat) (screen : List String) (w : List (Nat × String)),
    (∀ v ∈ vs, total ≤ vr + v → vsGetLine screen v = tildeLine) →
    vs.foldl (paintTildeStep vr total) (screen, w) = (screen, w) := by
  intro vs
  induction vs with
  | nil =>
    intro screen w _
    rfl
  | cons u rest ih =>
    intro screen w hmatch
    rw [List.foldl_cons]
    have hstep : paintTildeStep vr total (screen, w) u = (screen, w) := by
      unfold paintTildeStep
      by_cases hlt : vr + u < total
      · rw [if_pos hlt]
      · rw [if_neg hlt,
          if_pos (hmatch u (List.mem_cons_self u rest) (by omega))]
    rw [hstep]
    exact ih screen w (fun x hx => hmatch x (List.mem_cons_of_mem u hx))

theorem paintTilde_foldl_get_of_notMem (vr total : Nat) :
    ∀ (vs : List Nat) (acc : List String × List (Nat × String)) (v : Nat), v ∉ vs →
    vsGetLine ((vs.foldl (paintTildeStep vr total) acc).1) v = vsGetLine acc.1 v := by
  intro vs
  induction vs with
  | nil =>
    intro acc v _
    rfl
  | cons u rest ih =>
    intro acc v hv
    have hvu : v ≠ u := fun h => hv (h ▸ List.mem_cons_self u rest)
    have hvr : v ∉ rest := fun h => hv (List.mem_cons_of_mem u h)
    rw [List.foldl_cons, ih _ v hvr]
    unfold paintTildeStep
    split_ifs <;> first
      | rfl
      | exact vsGetLine_update_ne acc.1 (fun h => hvu h.symm) tildeLine

theorem paintTilde_foldl_establishes (vr total : Nat) :
    ∀ (vs : List Nat) (acc : List String × List (Nat × String)) (v : Nat),
    v ∈ vs → v < acc.1.length → total ≤ vr + v →
    vsGetLine ((vs.foldl (paintTildeStep vr total) acc).1) v = tildeLine := by
  intro vs
  induction vs with
  | nil =>
    intro acc v hv _ _
    exact absurd hv (List.not_mem_nil v)
  | cons u rest ih =>
    intro acc v hv hlen htot
    rw [List.foldl_cons]
    by_cases hvr : v ∈ rest
    · exact ih _ v hvr (by rw [length_paintTildeStep]; exact hlen) htot
    · have hvu : v = u := by
        rcases List.mem_cons.mp hv with h | h
        · exact h
        · exact absurd h hvr
      subst hvu
      rw [paintTilde_foldl_get_of_notMem vr total rest _ v hvr]
      unfold paintTildeStep
      rw [if_neg (by omega)]
      by_cases hc : vsGetLine acc.1 v = tildeLine
      · rw [if_pos hc]
        exact hc
      · rw [if_neg hc]
        exact vsGetLine_update_self acc.1 hlen tildeLine

/-- **C8 (amended).** In `main.rs`'s repaint pass, every candidate row
is compared against the `VirtualScreen` cache and written only on
mismatch: a pass over a screen that already caches every intended row
performs zero writes, and — since the pass clears the dirty set and
leaves every past-end row cached as the tilde row — a second pass
immediately after any first pass performs zero content-row writes.
(`render.rs::Renderer::render`, by contrast, repaints dirty in-buffer
rows unconditionally; refuted separately.) -/
theorem c8_second_pass_no_writes :
    (∀ (b : Buf) (dirty : List Nat) (vr ml : Nat) (screen : List String),
      (∀ l ∈ dirty, vr ≤ l → l < vr + ml → l < lenLines b →
          vsGetLine screen (l - vr) = combinedLine b l) →
      (∀ v ∈ List.range ml, lenLines b ≤ vr + v → vsGetLine screen v = tildeLine) →
      (renderPass b dirty vr ml screen).2 = [])
    ∧ (∀ (b : Buf) (dirty : List Nat) (vr ml : Nat) (screen : List String),
      screen.length = ml →
      (renderPass b [] vr ml ((renderPass b dirty vr ml screen).1)).2 = []) := by
  constructor
  · intro b dirty vr ml screen h1 h2
    unfold renderPass
    rw [paintLine_foldl_nowrite b vr ml (lenLines b) dirty screen [] h1,
      paintTilde_foldl_nowrite vr (lenLines b) (List.range ml) screen [] h2]
  · intro b dirty vr ml screen hlen
    have hlen1 : ((dirty.foldl (paintLineStep b vr ml (lenLines b)) (screen, [])).1).length
        = ml := by
      rw [paintLine_foldl_length]
      exact hlen
    have hs2 : ∀ v ∈ List.range ml, lenLines b ≤ vr + v →
        vsGetLine ((renderPass b dirty vr ml screen).1) v = tildeLine := by
      intro v hv htot
      unfold renderPass
      exact paintTilde_foldl_establishes vr (lenLines b) (List.range ml) _ v hv
        (by rw [hlen1]; exact List.mem_range.mp hv) htot
    show ((List.range ml).foldl (paintTildeStep vr (lenLines b))
        (([] : List Nat).foldl (paintLineStep b vr ml (lenLines b))
          ((renderPass b dirty vr ml screen).1, []))).2 = []
    rw [List.foldl_nil,
      paintTilde_foldl_nowrite vr (lenLines b) (List.range ml)
        ((renderPass b dirty vr ml screen).1) [] hs2]

/-- Counterexample for C8 as stated: `render.rs::Renderer::render`
repaints a dirty in-buffer row even when the cache already holds
exactly the intended content — the write list is non-empty although
cache and intended row agree. -/
theorem c8_counterexample :
    vsGetLine [combinedLine ['a'] 0] 0 = combinedLine ['a'] 0
    ∧ (renderRsPass ['a'] [0] 0 1 [combinedLine ['a'] 0]).2 ≠ [] := by
  refine ⟨rfl, ?_⟩
  show (renderRsLineStep ['a'] 0 1 (lenLines ['a'])
      ([combinedLine ['a'] 0], []) 0).2 ≠ []
  rw [renderRsLineStep]
  rw [if_neg (by simp [lenLines, splitLines]), if_neg (by simp [lenLines, splitLines])]
  simp

/-- Witness for C8: a matching one-row screen takes zero writes, and a
second pass after a fresh first pass over a blank two-row screen takes
zero writes. -/
theorem c8_witness :
    (renderPass ['a'] [0] 0 2 [combinedLine ['a'] 0, tildeLine]).2 = []
    ∧ (renderPass ['a'] [] 0 2 ((renderPass ['a'] [0, 1] 0 2 ["", ""]).1)).2 = [] :=
  ⟨c8_second_pass_no_writes.1 ['a'] [0] 0 2 [combinedLine ['a'] 0, tildeLine]
      (by decide) (by decide),
   c8_second_pass_no_writes.2 ['a'] [0, 1] 0 2 ["", ""] (by decide)⟩

end Rusty
